import Mathlib

/-!
Expression calculator (`ProgrammingScience_1.cpp`): embedding and verified properties

The C++ program evaluates arithmetic text in three layers:

* `Parser::ParserString` resolves parentheses by evaluating the innermost group and splicing the
  decimal rendering of its value back into the text;
* `Parser::ParserExpression` tokenizes a flat text into a vector of numbers and a vector of
  operator / function-name tokens;
* `CalculatorEngine::CalculateExpression` reduces the two vectors in three passes.

All three are templates over the numeric type `Number`.  The embedding keeps that parameter: a
`NumberOps Number` record supplies the arithmetic the template uses (`+ - * /`, `pow`, unary minus,
`== 0`, `NAN`, `std::isnan`), the numeric conversion behind `std::stod` and `std::to_string`.
`std::string` is `List Char`, `std::vector` is `List`.  An evaluation ends in one of four ways,
kept apart by `Failure`: a returned number, a thrown C++ exception, `exit(1)`, or undefined
behaviour (an out-of-range vector access).
-/

namespace Calc

/-- A `std::string`. -/
abbrev Str := List Char

/-- The two standard exceptions the program can throw. -/
inductive Exception
  | invalid_argument
  | out_of_range
  deriving DecidableEq, Repr

/-- The ways an evaluation can end without returning a number. -/
inductive Failure
  | thrown (e : Exception)
  | exited (status : Nat)
  | undefined
  deriving DecidableEq, Repr

/-- Result of running a piece of the program: a value or a `Failure`. -/
abbrev Outcome (α : Type) := Except Failure α

/-- The operations the templates require of their `Number` parameter, together with the two
library conversions between numbers and text.  `ofDecimal m e` is the number `std::stod` produces
for the decimal literal with digits `m` and `e` digits after the point (`none` when `std::stod`
reports a range error); `to_string` is `std::to_string`. -/
structure NumberOps (Number : Type) where
  add : Number → Number → Number
  sub : Number → Number → Number
  mul : Number → Number → Number
  div : Number → Number → Number
  pow : Number → Number → Number
  neg : Number → Number
  isZero : Number → Bool
  nan : Number
  isnan : Number → Bool
  ofDecimal : Nat → Nat → Option Number
  to_string : Number → Str

/-- A loaded plugin: `pluginFunc(name, argument)` returns `(success, result)`. -/
structure Plugin (Number : Type) where
  function : Str → Number → Bool × Number

section Strings

/-- The call `s.substr(pos, n)` for `pos ≤ s.size()`. -/
def substr (s : Str) (pos n : Nat) : Str := (s.drop pos).take n

/-- The call `s.erase(pos, n)`. -/
def eraseStr (s : Str) (pos n : Nat) : Str := s.take pos ++ s.drop (pos + n)

/-- The call `s.insert(pos, t)`. -/
def insertStr (s : Str) (pos : Nat) (t : Str) : Str := s.take pos ++ t ++ s.drop pos

/-- Value of a string of decimal digits, most significant first. -/
def digitsValue (s : Str) : Nat := s.foldl (fun acc c => 10 * acc + (c.toNat - 48)) 0

end Strings

section Stod

variable {Number : Type}

/-- The call `static_cast<Number>(std::stod(s))` on the texts the tokenizer can build (digits,
`.` and `,` only), in the default "C" locale: the longest prefix of the form `digits [. digits]`
is converted and the rest of the text is ignored; with no digit in that prefix the library throws
`std::invalid_argument`, and `std::out_of_range` when the value is not representable. -/
def stod (ops : NumberOps Number) (s : Str) : Outcome Number :=
  let ip := s.takeWhile Char.isDigit
  let fp := match s.dropWhile Char.isDigit with
    | '.' :: t => t.takeWhile Char.isDigit
    | _ => []
  if ip = [] ∧ fp = [] then .error (.thrown .invalid_argument)
  else match ops.ofDecimal (digitsValue (ip ++ fp)) fp.length with
    | some x => .ok x
    | none => .error (.thrown .out_of_range)

end Stod

section Engine

variable {Number : Type}

/-- The map `functions` of `CalculateExpression`: the five binary operators; `/` tests its right
operand against zero and answers `NAN`. -/
def functions (ops : NumberOps Number) (name : Str) : Option (Number → Number → Number) :=
  if name = ['+'] then some (fun x y => ops.add x y)
  else if name = ['-'] then some (fun x y => ops.sub x y)
  else if name = ['*'] then some (fun x y => ops.mul x y)
  else if name = ['/'] then some (fun x y => if ops.isZero y then ops.nan else ops.div x y)
  else if name = ['^'] then some (fun x y => ops.pow x y)
  else none

/-- The test of pass 1: `funcName` is one of the six function names. -/
def isFunctionName (funcName : Str) : Bool :=
  funcName == ['s', 'i', 'n'] || funcName == ['c', 'o', 's'] || funcName == ['t', 'g'] ||
  funcName == ['c', 't', 'g'] || funcName == ['l', 'o', 'g'] || funcName == ['l', 'n']

/-- The inner loop of pass 1 over the plugins: the first plugin reporting success gives the
result; each call reads `numbers[i]`, which is undefined behaviour when out of range. -/
def callPlugins (funcName : Str) (numbers : List Number) (i : Nat) :
    List (Plugin Number) → Outcome (Option Number)
  | [] => .ok none
  | plugin :: rest =>
    match numbers[i]? with
    | none => .error .undefined
    | some x =>
      let r := plugin.function funcName x
      if r.1 then .ok (some r.2) else callPlugins funcName numbers i rest

/-- Pass 1 (functions), the loop `for (i = 0; i < actions.size(); ++i)`.  The first argument
bounds the number of iterations; `actions.length - i` always suffices (`pass1Loop_fuel`). -/
def pass1Loop (ops : NumberOps Number) (plugins : List (Plugin Number)) :
    Nat → Nat → List Number → List Str → Outcome (List Number × List Str)
  | 0, _, numbers, actions => .ok (numbers, actions)
  | fuel + 1, i, numbers, actions =>
    match actions[i]? with
    | none => .ok (numbers, actions)
    | some funcName =>
      if isFunctionName funcName then
        match callPlugins funcName numbers i plugins with
        | .error f => .error f
        | .ok none => pass1Loop ops plugins fuel (i + 1) numbers actions
        | .ok (some res) =>
          if ops.isnan res then .error (.exited 1)
          else pass1Loop ops plugins fuel i (numbers.set i res) (actions.eraseIdx i)
      else pass1Loop ops plugins fuel (i + 1) numbers actions

/-- Passes 2 and 3 share their body; `sel` is the test on `actions[i]` (`* / ^` or `+ -`).
Reading `numbers[i]` or `numbers[i + 1]` out of range is undefined behaviour. -/
def reduceLoop (ops : NumberOps Number) (sel : Str → Bool) :
    Nat → Nat → List Number → List Str → Outcome (List Number × List Str)
  | 0, _, numbers, actions => .ok (numbers, actions)
  | fuel + 1, i, numbers, actions =>
    match actions[i]? with
    | none => .ok (numbers, actions)
    | some a =>
      if sel a then
        match functions ops a with
        | none => reduceLoop ops sel fuel (i + 1) numbers actions
        | some func =>
          match numbers[i]?, numbers[i + 1]? with
          | some x, some y =>
            reduceLoop ops sel fuel i ((numbers.set i (func x y)).eraseIdx (i + 1))
              (actions.eraseIdx i)
          | _, _ => .error .undefined
      else reduceLoop ops sel fuel (i + 1) numbers actions

/-- The test of pass 2. -/
def isMulLevel (a : Str) : Bool := a == ['*'] || a == ['/'] || a == ['^']

/-- The test of pass 3. -/
def isAddLevel (a : Str) : Bool := a == ['+'] || a == ['-']

/-- The method `CalculatorEngine::CalculateExpression`. -/
def CalculateExpression (ops : NumberOps Number) (plugins : List (Plugin Number))
    (numbers : List Number) (actions : List Str) : Outcome Number :=
  match pass1Loop ops plugins actions.length 0 numbers actions with
  | .error f => .error f
  | .ok (numbers1, actions1) =>
    match reduceLoop ops isMulLevel actions1.length 0 numbers1 actions1 with
    | .error f => .error f
    | .ok (numbers2, actions2) =>
      match reduceLoop ops isAddLevel actions2.length 0 numbers2 actions2 with
      | .error f => .error f
      | .ok (numbers3, _) =>
        match numbers3 with
        | [] => .error (.thrown .out_of_range)
        | x :: _ => .ok x

end Engine

section Tokenizer

variable {Number : Type}

/-- The local variables of `ParserExpression`. -/
structure TokState (Number : Type) where
  StackOfNumbers : List Number
  StackOfActions : List Str
  NumberStr : Str
  FunctionStr : Str
  isNegative : Bool

/-- The vector `Actions` of `ParserExpression`. -/
def Actions : List Str :=
  [['s', 'i', 'n'], ['c', 'o', 's'], ['t', 'g'], ['c', 't', 'g'], ['l', 'o', 'g'], ['l', 'n'],
   ['+'], ['-'], ['/'], ['*'], ['^']]

/-- The block `if (!NumberStr.empty()) { ... }`: convert the pending literal, apply and clear the
negation flag, push the number, clear the buffer. -/
def flushNumber (ops : NumberOps Number) (st : TokState Number) : Outcome (TokState Number) :=
  if st.NumberStr = [] then .ok st
  else match stod ops st.NumberStr with
    | .error f => .error f
    | .ok number =>
      .ok { st with
        StackOfNumbers := st.StackOfNumbers ++ [if st.isNegative then ops.neg number else number]
        isNegative := false
        NumberStr := [] }

/-- The loop `for (action : Actions) if (action == FunctionStr) { push; clear; break; }`. -/
def matchAction (st : TokState Number) : TokState Number :=
  match Actions.find? (fun action => action == st.FunctionStr) with
  | some action => { st with StackOfActions := st.StackOfActions ++ [action], FunctionStr := [] }
  | none => st

/-- The condition under which a `-` at index `i` only sets `isNegative`. -/
def unaryMinusAt (expression : Str) (i : Nat) : Bool :=
  i == 0 || (decide (i > 0) && (expression[i - 1]? == some '(' || expression[i - 1]? == some '*'
    || expression[i - 1]? == some '/' || expression[i - 1]? == some '^'))

/-- One iteration of the tokenizer loop at index `i`, where `CurrentChar = expression[i]`. -/
def tokBody (ops : NumberOps Number) (expression : Str) (i : Nat) (CurrentChar : Char)
    (st : TokState Number) : Outcome (TokState Number) :=
  if CurrentChar.isDigit ∨ CurrentChar = '.' ∨ CurrentChar = ',' then
    .ok { st with NumberStr := st.NumberStr ++ [CurrentChar] }
  else if CurrentChar = '-' then
    if unaryMinusAt expression i then .ok { st with isNegative := true }
    else flushNumber ops (matchAction { st with FunctionStr := [CurrentChar] })
  else if CurrentChar = ' ' then .ok st
  else
    match flushNumber ops { st with FunctionStr := st.FunctionStr ++ [CurrentChar] } with
    | .error f => .error f
    | .ok st1 => .ok (matchAction st1)

/-- The tokenizer loop from index `i`; the third argument is `expression[i..]`. -/
def tokLoop (ops : NumberOps Number) (expression : Str) :
    Nat → Str → TokState Number → Outcome (TokState Number)
  | _, [], st => .ok st
  | i, CurrentChar :: rest, st =>
    match tokBody ops expression i CurrentChar st with
    | .error f => .error f
    | .ok st1 => tokLoop ops expression (i + 1) rest st1

/-- The two vectors `ParserExpression` passes to `CalculateExpression`. -/
def tokenize (ops : NumberOps Number) (expression : Str) : Outcome (List Number × List Str) :=
  match tokLoop ops expression 0 expression ⟨[], [], [], [], false⟩ with
  | .error f => .error f
  | .ok st =>
    match flushNumber ops st with
    | .error f => .error f
    | .ok st1 => .ok (st1.StackOfNumbers, st1.StackOfActions)

/-- The method `Parser::ParserExpression`. -/
def ParserExpression (ops : NumberOps Number) (plugins : List (Plugin Number))
    (expression : Str) : Outcome Number :=
  match tokenize ops expression with
  | .error f => .error f
  | .ok (numbers, actions) => CalculateExpression ops plugins numbers actions

end Tokenizer

section Brackets

variable {Number : Type}

/-- The variables of the scan loop of `ParserString`. -/
structure ScanState where
  expression : Str
  i : Nat
  LeftBracketIndex : List Nat
  deriving DecidableEq, Repr

/-- One iteration of the scan loop of `ParserString` including its `++i`, for `i` in range.
`LeftBracketIndex.back()` on the empty vector is undefined behaviour. -/
def scanStep (ops : NumberOps Number) (plugins : List (Plugin Number)) (st : ScanState)
    (c : Char) : Outcome ScanState :=
  if c = '(' then
    .ok { st with LeftBracketIndex := st.LeftBracketIndex ++ [st.i], i := st.i + 1 }
  else if c = ')' then
    match st.LeftBracketIndex.getLast? with
    | none => .error .undefined
    | some CurrentLeftIndex =>
      let subExpression := substr st.expression (CurrentLeftIndex + 1) (st.i - CurrentLeftIndex - 1)
      match ParserExpression ops plugins subExpression with
      | .error f => .error f
      | .ok CurrentExpression =>
        .ok { expression :=
                insertStr (eraseStr st.expression CurrentLeftIndex (st.i - CurrentLeftIndex + 1))
                  CurrentLeftIndex (ops.to_string CurrentExpression)
              i := CurrentLeftIndex + (ops.to_string CurrentExpression).length
              LeftBracketIndex := st.LeftBracketIndex.dropLast }
  else .ok { st with i := st.i + 1 }

/-- The scan loop of `ParserString`, at most `fuel` iterations: `none` when the bound is reached
before the loop ends, otherwise the text it leaves (or the failure that ended it). -/
def scanLoop (ops : NumberOps Number) (plugins : List (Plugin Number)) :
    Nat → ScanState → Option (Outcome Str)
  | 0, _ => none
  | fuel + 1, st =>
    match st.expression[st.i]? with
    | none => some (.ok st.expression)
    | some c =>
      match scanStep ops plugins st c with
      | .error f => some (.error f)
      | .ok st1 => scanLoop ops plugins fuel st1

/-- The method `Parser::ParserString`, its scan loop run for at most `fuel` iterations. -/
def ParserString (ops : NumberOps Number) (plugins : List (Plugin Number)) (fuel : Nat)
    (expression : Str) : Option (Outcome Number) :=
  match scanLoop ops plugins fuel ⟨expression, 0, []⟩ with
  | none => none
  | some (.error f) => some (.error f)
  | some (.ok flat) => some (ParserExpression ops plugins flat)

end Brackets

section ReadLoop

variable {Number : Type}

/-- How one iteration of the `while (true)` loop of `main` ends. -/
inductive Iteration (Number : Type)
  | printedResult (result : Number)
  | printedMistake (e : Exception)
  | processExit (status : Nat)
  | undefined
  deriving DecidableEq

/-- One iteration of the read loop of `main` on the line `inputExpression`: the value is printed
after `Result: `; an exception is caught and printed after `Mistake: `, and in both cases the
loop goes on to the next line; a call of `exit` ends the process. -/
def mainIteration (ops : NumberOps Number) (plugins : List (Plugin Number)) (fuel : Nat)
    (inputExpression : Str) : Option (Iteration Number) :=
  match ParserString ops plugins fuel inputExpression with
  | none => none
  | some (.ok result) => some (.printedResult result)
  | some (.error (.thrown e)) => some (.printedMistake e)
  | some (.error (.exited status)) => some (.processExit status)
  | some (.error .undefined) => some .undefined

end ReadLoop

section EngineLog

variable {Number : Type}

/-- The three passes of `CalculateExpression`: the two vectors as they are when the final
`numbers.empty()` test is reached. -/
def passes (ops : NumberOps Number) (plugins : List (Plugin Number))
    (numbers : List Number) (actions : List Str) : Outcome (List Number × List Str) :=
  match pass1Loop ops plugins actions.length 0 numbers actions with
  | .error f => .error f
  | .ok (numbers1, actions1) =>
    match reduceLoop ops isMulLevel actions1.length 0 numbers1 actions1 with
    | .error f => .error f
    | .ok (numbers2, actions2) => reduceLoop ops isAddLevel actions2.length 0 numbers2 actions2

/-- Pass 1 once more, recording the two vectors right after every removal step (the assignment
`numbers[i] = res` with `actions.erase`). -/
def pass1Log (ops : NumberOps Number) (plugins : List (Plugin Number)) :
    Nat → Nat → List Number → List Str → List (List Number × List Str)
  | 0, _, _, _ => []
  | fuel + 1, i, numbers, actions =>
    match actions[i]? with
    | none => []
    | some funcName =>
      if isFunctionName funcName then
        match callPlugins funcName numbers i plugins with
        | .error _ => []
        | .ok none => pass1Log ops plugins fuel (i + 1) numbers actions
        | .ok (some res) =>
          (numbers.set i res, actions.eraseIdx i) ::
            (if ops.isnan res then []
             else pass1Log ops plugins fuel i (numbers.set i res) (actions.eraseIdx i))
      else pass1Log ops plugins fuel (i + 1) numbers actions

/-- Passes 2 and 3 once more, recording the two vectors right after every removal step (the two
`erase` calls). -/
def reduceLog (ops : NumberOps Number) (sel : Str → Bool) :
    Nat → Nat → List Number → List Str → List (List Number × List Str)
  | 0, _, _, _ => []
  | fuel + 1, i, numbers, actions =>
    match actions[i]? with
    | none => []
    | some a =>
      if sel a then
        match functions ops a with
        | none => reduceLog ops sel fuel (i + 1) numbers actions
        | some func =>
          match numbers[i]?, numbers[i + 1]? with
          | some x, some y =>
            ((numbers.set i (func x y)).eraseIdx (i + 1), actions.eraseIdx i) ::
              reduceLog ops sel fuel i ((numbers.set i (func x y)).eraseIdx (i + 1))
                (actions.eraseIdx i)
          | _, _ => []
      else reduceLog ops sel fuel (i + 1) numbers actions

/-- The two vectors after every removal step of the three passes, in order. -/
def engineLog (ops : NumberOps Number) (plugins : List (Plugin Number))
    (numbers : List Number) (actions : List Str) : List (List Number × List Str) :=
  pass1Log ops plugins actions.length 0 numbers actions ++
    match pass1Loop ops plugins actions.length 0 numbers actions with
    | .error _ => []
    | .ok (numbers1, actions1) =>
      reduceLog ops isMulLevel actions1.length 0 numbers1 actions1 ++
        match reduceLoop ops isMulLevel actions1.length 0 numbers1 actions1 with
        | .error _ => []
        | .ok (numbers2, actions2) => reduceLog ops isAddLevel actions2.length 0 numbers2 actions2

end EngineLog

section ExactInstance

/-- Numbers of the reference instance: an exact rational, or NaN. -/
inductive Value
  | fin (q : ℚ)
  | nan
  deriving DecidableEq

/-- Lift of an exact binary operation; NaN in, NaN out. -/
def Value.lift2 (f : ℚ → ℚ → ℚ) : Value → Value → Value
  | .fin a, .fin b => .fin (f a b)
  | _, _ => .nan

/-- Exact `pow`: a natural exponent, or a negative integer exponent of a non-zero base.  As in
IEEE 754, `pow(x, 0)` and `pow(1, y)` are `1` also for a NaN argument.  Other arguments
(irrational or infinite results) have no value in this instance and give NaN. -/
def Value.pow : Value → Value → Value
  | .fin a, .fin b =>
    if b.den = 1 then
      if 0 ≤ b.num then .fin (a ^ b.num.toNat)
      else if a = 0 then .nan else .fin ((a ^ b.num.natAbs)⁻¹)
    else if a = 1 then .fin 1 else .nan
  | .nan, .fin b => if b = 0 then .fin 1 else .nan
  | .fin a, .nan => if a = 1 then .fin 1 else .nan
  | .nan, .nan => .nan

/-- Rounding of `n / d` to the nearest natural number, ties to even. -/
def roundHalfEven (n d : Nat) : Nat :=
  let q := n / d
  let r := n % d
  if 2 * r > d then q + 1
  else if 2 * r = d then (if q % 2 = 0 then q else q + 1)
  else q

/-- The format `%f` of `std::to_string(double)`: sign, integer part, `.`, six decimals. -/
def formatF (q : ℚ) : Str :=
  let r := roundHalfEven (q.num.natAbs * 10 ^ 6) q.den
  let frac := Nat.toDigits 10 (r % 10 ^ 6)
  (if q < 0 then ['-'] else []) ++ Nat.toDigits 10 (r / 10 ^ 6) ++ ['.'] ++
    List.replicate (6 - frac.length) '0' ++ frac

/-- The rendering `std::to_string` of the reference instance. -/
def Value.to_string : Value → Str
  | .fin q => formatF q
  | .nan => ['n', 'a', 'n']

/-- The reference instance of `Number`: exact rational arithmetic with a NaN.  It agrees with
`double` wherever every value involved is exactly representable. -/
def exactOps : NumberOps Value where
  add := Value.lift2 (fun a b => a + b)
  sub := Value.lift2 (fun a b => a - b)
  mul := Value.lift2 (fun a b => a * b)
  div := Value.lift2 (fun a b => a / b)
  pow := Value.pow
  neg := fun v => match v with
    | .fin a => .fin (-a)
    | .nan => .nan
  isZero := fun v => match v with
    | .fin a => decide (a = 0)
    | .nan => false
  nan := .nan
  isnan := fun v => match v with
    | .fin _ => false
    | .nan => true
  ofDecimal := fun m e => some (.fin ((m : ℚ) / 10 ^ e))
  to_string := Value.to_string

/-- A provider that serves `log` and, like the real logarithm, answers a negative argument with
success and NaN; it declines every other call. -/
def logOfNegative : Plugin Value where
  function := fun name x =>
    match x with
    | .fin q => if name = ['l', 'o', 'g'] ∧ q < 0 then (true, .nan) else (false, x)
    | .nan => (false, x)

/-- A provider that serves `sin` at the argument `0` (with the value `0`) and declines every
other call. -/
def sinAtZero : Plugin Value where
  function := fun name x =>
    if name = ['s', 'i', 'n'] ∧ x = .fin 0 then (true, .fin 0) else (false, x)

/-- A provider that answers every call with success and the value `1`. -/
def answersOne : Plugin Value where
  function := fun _ _ => (true, .fin 1)

end ExactInstance

section SpecVocabulary

variable {Number : Type}

deriving instance DecidableEq for Except

/-- The characters `+ * / ^`, which the tokenizer always reads as binary operators. -/
def IsPlainOperator (op : Char) : Prop := op = '+' ∨ op = '*' ∨ op = '/' ∨ op = '^'

instance : DecidablePred IsPlainOperator :=
  fun op => inferInstanceAs (Decidable (op = '+' ∨ op = '*' ∨ op = '/' ∨ op = '^'))

/-- A text without parentheses (a flat expression). -/
def NoParen (s : Str) : Prop := ∀ c ∈ s, c ≠ '(' ∧ c ≠ ')'

/-- An unsigned integer literal: a text of decimal digits. -/
def IsDigits (s : Str) : Prop := ∀ c ∈ s, c.isDigit = true

instance : DecidablePred IsDigits :=
  fun s => inferInstanceAs (Decidable (∀ c ∈ s, c.isDigit = true))

/-- A text of the characters the tokenizer collects into `NumberStr`. -/
def IsNumberText (s : Str) : Prop := ∀ c ∈ s, c.isDigit = true ∨ c = '.' ∨ c = ','

instance : DecidablePred IsNumberText :=
  fun s => inferInstanceAs (Decidable (∀ c ∈ s, c.isDigit = true ∨ c = '.' ∨ c = ','))

/-- The rendering `std::to_string(v)` is an unsigned decimal literal that `std::stod` converts
back to `v`. -/
def ReadsBack (ops : NumberOps Number) (v : Number) : Prop :=
  (∀ c ∈ ops.to_string v, c.isDigit = true ∨ c = '.') ∧ stod ops (ops.to_string v) = .ok v

instance (ops : NumberOps Number) [DecidableEq Number] (v : Number) : Decidable (ReadsBack ops v) :=
  inferInstanceAs (Decidable (_ ∧ _))

/-- A `-` at index `i` stands first in the text or right after one of `( * / ^`. -/
def UnaryPosition (expression : Str) (i : Nat) : Prop :=
  i = 0 ∨ (0 < i ∧ ∃ p, expression[i - 1]? = some p ∧ (p = '(' ∨ p = '*' ∨ p = '/' ∨ p = '^'))

instance : DecidablePred NoParen :=
  fun s => inferInstanceAs (Decidable (∀ c ∈ s, c ≠ '(' ∧ c ≠ ')'))

/-- The operation of the number type an operator character denotes. -/
def binop (ops : NumberOps Number) (op : Char) : Number → Number → Number :=
  if op = '+' then ops.add
  else if op = '-' then ops.sub
  else if op = '*' then ops.mul
  else if op = '/' then ops.div
  else ops.pow

/-- An operand of a flat expression: an unsigned literal with function names in front of it,
as in `sin0` or `lnsin0`. -/
structure Operand where
  fs : List Str
  lit : Str

/-- The text of an operand. -/
def Operand.text (t : Operand) : Str := t.fs.flatten ++ t.lit

/-- An operand whose function names are among the six known ones and whose literal is a
non-empty text of digits, `.` and `,`. -/
def Operand.WellFormed (t : Operand) : Prop :=
  (∀ f ∈ t.fs, isFunctionName f = true) ∧ IsNumberText t.lit ∧ t.lit ≠ []

instance (t : Operand) : Decidable t.WellFormed :=
  inferInstanceAs (Decidable (_ ∧ _ ∧ _))

/-- The flat text `t0 o1 t1 ... ok tk`. -/
def flatText (t0 : Operand) : List (Char × Operand) → Str
  | [] => t0.text
  | (op, t) :: rest => t0.text ++ op :: flatText t rest

/-- The operator sequence of `t0 o1 t1 ... ok tk`: function names and operators in the order
of the text. -/
def flatActions (t0 : Operand) : List (Char × Operand) → List Str
  | [] => t0.fs
  | (op, t) :: rest => t0.fs ++ [op] :: flatActions t rest

/-- The indices of the `(` characters of a text whose first character has index `k`, in
increasing order. -/
def openIndicesFrom : Nat → Str → List Nat
  | _, [] => []
  | k, c :: s => if c = '(' then k :: openIndicesFrom (k + 1) s else openIndicesFrom (k + 1) s

/-- The indices of the `(` characters of a text. -/
def openIndices (s : Str) : List Nat := openIndicesFrom 0 s

/-- The scan loop of `ParserString`, started in the state `st`, is in the state `st'` at the
head of some later iteration. -/
inductive ScanReaches {Number : Type} (ops : NumberOps Number) (plugins : List (Plugin Number)) :
    ScanState → ScanState → Prop
  | start (st : ScanState) : ScanReaches ops plugins st st
  | next {st st1 st2 : ScanState} {c : Char} :
      ScanReaches ops plugins st st1 → st1.expression[st1.i]? = some c →
      scanStep ops plugins st1 c = .ok st2 → ScanReaches ops plugins st st2

/-- What holds at the head of every iteration of the scan loop on the input `text`: the part of
the current text in front of the index `i` holds no `)`, the bracket stack lists the `(` of
that part, the part from `i` on is the untouched rest of the input, and the stack is as long as
the consumed input has more `(` than `)`. -/
def ScanInvariant (text : Str) (st : ScanState) : Prop :=
  ∃ consumed pre post : Str,
    text = consumed ++ post ∧ st.expression = pre ++ post ∧ st.i = pre.length ∧
    st.LeftBracketIndex = openIndices pre ∧ (∀ c ∈ pre, c ≠ ')') ∧
    st.LeftBracketIndex.length + consumed.count ')' = consumed.count '('

/-- Every `)` of the text has a pending `(`: in front of each `)` there are more `(` than
`)`. -/
def ClosersPending (text : Str) : Prop :=
  ∀ k < text.length, text[k]? = some ')' → (text.take k).count ')' < (text.take k).count '('

instance : DecidablePred ClosersPending :=
  fun text => inferInstanceAs (Decidable (∀ k < text.length, _))

end SpecVocabulary

section Reference

variable {Number : Type}

/-- The five binary operator tokens. -/
def binaryTokens : List Str := [['+'], ['-'], ['*'], ['/'], ['^']]

/-- The number of binary-operator tokens in an operator sequence. -/
def binaryCount (actions : List Str) : Nat := actions.countP (fun a => decide (a ∈ binaryTokens))

/-- The value of `x a y` for an operator token `a`, read off the map `functions`. -/
def applyOp (ops : NumberOps Number) (a : Str) (x y : Number) : Number :=
  match functions ops a with
  | some func => func x y
  | none => x

/-- One reduction level on an expression given as a first operand and a list of
(operator, operand) pairs: an operator selected by `sel` combines the running value with the next
operand, any other operator closes the running value and starts the next one.  The result is the
first closed value and the remaining (operator, value) pairs. -/
def collapse (ops : NumberOps Number) (sel : Str → Bool) :
    Number → List (Str × Number) → Number × List (Str × Number)
  | x, [] => (x, [])
  | x, (a, y) :: rest =>
    if sel a then collapse ops sel (applyOp ops a x y) rest
    else (x, (a, (collapse ops sel y rest).1) :: (collapse ops sel y rest).2)

/-- Left-to-right reduction of a whole list of (operator, operand) pairs. -/
def foldOps (ops : NumberOps Number) : Number → List (Str × Number) → Number
  | x, [] => x
  | x, (a, y) :: rest => foldOps ops (applyOp ops a x y) rest

/-- The two-level reference evaluation of `n0 o1 n1 ... ok nk`: every maximal run of `* / ^` is
reduced from the left, without precedence among the three, then the remaining `+` and `-` are
reduced from the left. -/
def twoLevelEval (ops : NumberOps Number) (n0 : Number) (rest : List (Str × Number)) : Number :=
  foldOps ops (collapse ops isMulLevel n0 rest).1 (collapse ops isMulLevel n0 rest).2

/-- The mathematical value of `m op n` for natural numbers `m`, `n`, as a rational number. -/
def exactValue (op : Char) (m n : Nat) : ℚ :=
  if op = '+' then (m : ℚ) + n
  else if op = '-' then (m : ℚ) - n
  else if op = '*' then (m : ℚ) * n
  else if op = '/' then (m : ℚ) / n
  else (m : ℚ) ^ n

end Reference

/-! ## Verified properties -/

section Properties

variable {Number : Type}

/-- The iteration bound of pass 1 is never the reason the loop stops: any bound of at least
`actions.length - i` gives the same result. -/
theorem pass1Loop_fuel (ops : NumberOps Number) (plugins : List (Plugin Number)) :
    ∀ (fuel i : Nat) (numbers : List Number) (actions : List Str),
      actions.length - i ≤ fuel →
      pass1Loop ops plugins fuel i numbers actions =
        pass1Loop ops plugins (actions.length - i) i numbers actions := by
  intro fuel
  induction fuel with
  | zero =>
    intro i numbers actions h
    have : actions.length - i = 0 := by omega
    rw [this]
  | succ fuel ih =>
    intro i numbers actions h
    by_cases hi : i < actions.length
    · obtain ⟨k, hk⟩ : ∃ k, actions.length - i = k + 1 := ⟨actions.length - i - 1, by omega⟩
      rw [hk]
      simp only [pass1Loop, List.getElem?_eq_getElem hi]
      have e1 : actions.length - (i + 1) = k := by omega
      have e2 : (actions.eraseIdx i).length - i = k := by
        rw [List.length_eraseIdx]; simp [hi]; omega
      split
      · split
        · rfl
        · rw [ih _ _ _ (by omega), e1]
        · split
          · rfl
          · rw [ih _ _ _ (by omega), e2]
      · rw [ih _ _ _ (by omega), e1]
    · have : actions.length - i = 0 := by omega
      rw [this]
      simp only [pass1Loop]
      rw [List.getElem?_eq_none (by omega)]

/-- The iteration bound of passes 2 and 3 is never the reason the loop stops. -/
theorem reduceLoop_fuel (ops : NumberOps Number) (sel : Str → Bool) :
    ∀ (fuel i : Nat) (numbers : List Number) (actions : List Str),
      actions.length - i ≤ fuel →
      reduceLoop ops sel fuel i numbers actions =
        reduceLoop ops sel (actions.length - i) i numbers actions := by
  intro fuel
  induction fuel with
  | zero =>
    intro i numbers actions h
    have : actions.length - i = 0 := by omega
    rw [this]
  | succ fuel ih =>
    intro i numbers actions h
    by_cases hi : i < actions.length
    · obtain ⟨k, hk⟩ : ∃ k, actions.length - i = k + 1 := ⟨actions.length - i - 1, by omega⟩
      rw [hk]
      simp only [reduceLoop, List.getElem?_eq_getElem hi]
      have e1 : actions.length - (i + 1) = k := by omega
      have e2 : (actions.eraseIdx i).length - i = k := by
        rw [List.length_eraseIdx]; simp [hi]; omega
      split
      · split
        · rw [ih _ _ _ (by omega), e1]
        · split
          · rw [ih _ _ _ (by omega), e2]
          · rfl
      · rw [ih _ _ _ (by omega), e1]
    · have : actions.length - i = 0 := by omega
      rw [this]
      simp only [reduceLoop]
      rw [List.getElem?_eq_none (by omega)]

/-! ### Tokenizer -/

theorem tokLoop_append (ops : NumberOps Number) (expression : Str) :
    ∀ (l1 l2 : Str) (i : Nat) (st : TokState Number),
      tokLoop ops expression i (l1 ++ l2) st =
        match tokLoop ops expression i l1 st with
        | .error f => .error f
        | .ok st1 => tokLoop ops expression (i + l1.length) l2 st1 := by
  intro l1
  induction l1 with
  | nil => intro l2 i st; simp [tokLoop]
  | cons c l1 ih =>
    intro l2 i st
    simp only [List.cons_append, tokLoop]
    cases h : tokBody ops expression i c st with
    | error f => rfl
    | ok st1 =>
      simp only []
      have := ih l2 (i + 1) st1
      simp only [List.length_cons]
      rw [show i + (l1.length + 1) = i + 1 + l1.length by omega]
      exact this

theorem tokLoop_numChars (ops : NumberOps Number) (expression : Str) :
    ∀ (ds : Str) (i : Nat) (st : TokState Number),
      (∀ c ∈ ds, c.isDigit = true ∨ c = '.' ∨ c = ',') →
      tokLoop ops expression i ds st = .ok { st with NumberStr := st.NumberStr ++ ds } := by
  intro ds
  induction ds with
  | nil => intro i st _; simp [tokLoop]
  | cons c ds ih =>
    intro i st h
    have hc := h c (List.mem_cons_self _ _)
    simp only [tokLoop, tokBody, if_pos hc]
    rw [ih _ _ (fun d hd => h d (List.mem_cons_of_mem _ hd))]
    simp

theorem tokLoop_digits (ops : NumberOps Number) (expression : Str) (ds : Str) (i : Nat)
    (st : TokState Number) (h : ∀ c ∈ ds, c.isDigit = true) :
    tokLoop ops expression i ds st = .ok { st with NumberStr := st.NumberStr ++ ds } :=
  tokLoop_numChars ops expression ds i st (fun c hc => Or.inl (h c hc))

theorem flushNumber_literal (ops : NumberOps Number) (st : TokState Number) (x : Number)
    (hx : stod ops st.NumberStr = .ok x) :
    flushNumber ops st = .ok { st with
      StackOfNumbers := st.StackOfNumbers ++ [if st.isNegative then ops.neg x else x]
      isNegative := false
      NumberStr := [] } := by
  have hne : st.NumberStr ≠ [] := by
    intro h
    rw [h] at hx
    simp [stod] at hx
  simp [flushNumber, hne, hx]

theorem flushNumber_empty (ops : NumberOps Number) (st : TokState Number)
    (h : st.NumberStr = []) : flushNumber ops st = .ok st := by
  simp [flushNumber, h]

theorem matchAction_operator (st : TokState Number) (op : Char)
    (hop : IsPlainOperator op ∨ op = '-') (hF : st.FunctionStr = [op]) :
    matchAction st = { st with StackOfActions := st.StackOfActions ++ [[op]], FunctionStr := [] } := by
  obtain ⟨ns, as, num, fs, neg⟩ := st
  simp only at hF
  subst hF
  rcases hop with (h | h | h | h) | h <;> subst h <;> rfl

theorem tokBody_plainOperator_literal (ops : NumberOps Number) (expression : Str) (i : Nat)
    (op : Char) (hop : IsPlainOperator op) (st : TokState Number) (x : Number)
    (hF : st.FunctionStr = []) (hx : stod ops st.NumberStr = .ok x) :
    tokBody ops expression i op st = .ok
      { StackOfNumbers := st.StackOfNumbers ++ [if st.isNegative then ops.neg x else x]
        StackOfActions := st.StackOfActions ++ [[op]]
        NumberStr := []
        FunctionStr := []
        isNegative := false } := by
  have h1 : ¬ (op.isDigit = true ∨ op = '.' ∨ op = ',') := by
    rcases hop with h | h | h | h <;> subst h <;> decide
  have h2 : ¬ op = '-' := by rcases hop with h | h | h | h <;> subst h <;> decide
  have h3 : ¬ op = ' ' := by rcases hop with h | h | h | h <;> subst h <;> decide
  simp only [tokBody, if_neg h1, if_neg h2, if_neg h3]
  rw [flushNumber_literal ops _ x (by simpa using hx)]
  simp only [hF, List.nil_append]
  rw [matchAction_operator _ op (Or.inl hop) rfl]

theorem tokBody_binaryMinus_literal (ops : NumberOps Number) (expression : Str) (i : Nat)
    (st : TokState Number) (x : Number) (hu : unaryMinusAt expression i = false)
    (hx : stod ops st.NumberStr = .ok x) :
    tokBody ops expression i '-' st = .ok
      { StackOfNumbers := st.StackOfNumbers ++ [if st.isNegative then ops.neg x else x]
        StackOfActions := st.StackOfActions ++ [['-']]
        NumberStr := []
        FunctionStr := []
        isNegative := false } := by
  have h1 : ¬ (('-' : Char).isDigit = true ∨ ('-' : Char) = '.' ∨ ('-' : Char) = ',') := by decide
  simp only [tokBody, if_neg h1, hu]
  rw [matchAction_operator _ '-' (Or.inr rfl) rfl]
  rw [flushNumber_literal ops _ x (by simpa using hx)]
  simp

theorem tokBody_unaryMinus (ops : NumberOps Number) (expression : Str) (i : Nat)
    (st : TokState Number) (hu : unaryMinusAt expression i = true) :
    tokBody ops expression i '-' st = .ok { st with isNegative := true } := by
  have h1 : ¬ (('-' : Char).isDigit = true ∨ ('-' : Char) = '.' ∨ ('-' : Char) = ',') := by decide
  simp [tokBody, if_neg h1, hu]

/-! ### Scan loop of `ParserString` -/

/-- More iterations never change a result the scan loop has reached. -/
theorem scanLoop_mono (ops : NumberOps Number) (plugins : List (Plugin Number)) :
    ∀ (fuel : Nat) (st : ScanState) (r : Outcome Str),
      scanLoop ops plugins fuel st = some r →
      ∀ fuel', fuel ≤ fuel' → scanLoop ops plugins fuel' st = some r := by
  intro fuel
  induction fuel with
  | zero => intro st r h; simp [scanLoop] at h
  | succ fuel ih =>
    intro st r h fuel' hle
    obtain ⟨k, rfl⟩ : ∃ k, fuel' = k + 1 := ⟨fuel' - 1, by omega⟩
    simp only [scanLoop] at h ⊢
    cases hc : st.expression[st.i]? with
    | none => simpa [hc] using h
    | some c =>
      simp only [hc] at h ⊢
      cases hs : scanStep ops plugins st c with
      | error f => simpa [hs] using h
      | ok st1 =>
        simp only [hs] at h ⊢
        exact ih st1 r h k (by omega)

theorem scanLoop_end (ops : NumberOps Number) (plugins : List (Plugin Number)) (fuel : Nat)
    (e : Str) (stk : List Nat) :
    scanLoop ops plugins (fuel + 1) ⟨e, e.length, stk⟩ = some (.ok e) := by
  simp [scanLoop]

theorem scanLoop_skip (ops : NumberOps Number) (plugins : List (Plugin Number)) :
    ∀ (mid pre post : Str) (stk : List Nat) (fuel : Nat), NoParen mid →
      scanLoop ops plugins (fuel + mid.length) ⟨pre ++ mid ++ post, pre.length, stk⟩ =
        scanLoop ops plugins fuel ⟨pre ++ mid ++ post, pre.length + mid.length, stk⟩ := by
  intro mid
  induction mid with
  | nil => intro pre post stk fuel _; simp
  | cons c m ih =>
    intro pre post stk fuel h
    have hc := h c (List.mem_cons_self _ _)
    have hm : NoParen m := fun d hd => h d (List.mem_cons_of_mem _ hd)
    have hget : (pre ++ c :: m ++ post)[pre.length]? = some c := by
      rw [List.append_assoc, List.getElem?_append_right (Nat.le_refl _)]
      simp
    rw [show fuel + (c :: m).length = (fuel + m.length) + 1 by simp; omega]
    simp only [scanLoop, hget, scanStep, if_neg hc.1, if_neg hc.2]
    have e1 : pre ++ c :: m ++ post = (pre ++ [c]) ++ m ++ post := by simp
    have := ih (pre ++ [c]) post stk fuel hm
    simp only [List.length_append, List.length_singleton] at this
    rw [e1, this]
    simp only [List.length_cons]
    rw [show pre.length + (m.length + 1) = pre.length + 1 + m.length by omega]

/-- On a flat text the scan loop changes nothing. -/
theorem ParserString_flat (ops : NumberOps Number) (plugins : List (Plugin Number))
    (e : Str) (h : NoParen e) (fuel : Nat) (hfuel : e.length < fuel) :
    ParserString ops plugins fuel e = some (ParserExpression ops plugins e) := by
  obtain ⟨k, rfl⟩ : ∃ k, fuel = (k + 1) + e.length := ⟨fuel - e.length - 1, by omega⟩
  have := scanLoop_skip ops plugins e [] [] [] (k + 1) h
  simp only [List.nil_append, List.append_nil, List.length_nil, Nat.zero_add] at this
  simp only [ParserString, this, scanLoop_end]

theorem CalculateExpression_pair (ops : NumberOps Number) (plugins : List (Plugin Number))
    (op : Char) (hop : IsPlainOperator op ∨ op = '-') (x y : Number)
    (hdiv : op = '/' → ops.isZero y = false) :
    CalculateExpression ops plugins [x, y] [[op]] = .ok (binop ops op x y) := by
  rcases hop with (h | h | h | h) | h <;> subst h
  · rfl
  · rfl
  · have := hdiv rfl
    simp [CalculateExpression, pass1Loop, reduceLoop, isFunctionName, isMulLevel, functions, binop, this]
  · rfl
  · rfl

/-! ### Decimal texts and the exact instance -/

theorem foldl_digit_value (s : Str) (acc : Nat) :
    s.foldl (fun acc c => 10 * acc + (c.toNat - 48)) acc = acc * 10 ^ s.length + digitsValue s := by
  induction s generalizing acc with
  | nil => simp [digitsValue]
  | cons c s ih =>
    simp only [List.foldl_cons, List.length_cons, digitsValue]
    rw [ih, ih (10 * 0 + (c.toNat - 48))]
    ring

theorem digitsValue_append (s t : Str) :
    digitsValue (s ++ t) = digitsValue s * 10 ^ t.length + digitsValue t := by
  simp only [digitsValue, List.foldl_append]
  rw [foldl_digit_value t]
  rfl

theorem digitsValue_cons (c : Char) (s : Str) :
    digitsValue (c :: s) = (c.toNat - 48) * 10 ^ s.length + digitsValue s := by
  have := digitsValue_append [c] s
  simpa [digitsValue] using this

theorem digitChar_isDigit (k : Nat) (hk : k < 10) :
    (Nat.digitChar k).isDigit = true ∧ (Nat.digitChar k).toNat - 48 = k := by
  interval_cases k <;> decide

theorem toDigitsCore_spec :
    ∀ (fuel n : Nat) (ds : Str), n < fuel → (∀ c ∈ ds, c.isDigit = true) →
      (∀ c ∈ Nat.toDigitsCore 10 fuel n ds, c.isDigit = true) ∧
      digitsValue (Nat.toDigitsCore 10 fuel n ds) = n * 10 ^ ds.length + digitsValue ds := by
  intro fuel
  induction fuel with
  | zero => intro n ds h; omega
  | succ fuel ih =>
    intro n ds hn hds
    have hd := digitChar_isDigit (n % 10) (Nat.mod_lt _ (by decide))
    have hds' : ∀ c ∈ Nat.digitChar (n % 10) :: ds, c.isDigit = true := by
      intro c hc
      rcases List.mem_cons.1 hc with h | h
      · rw [h]; exact hd.1
      · exact hds c h
    have hval : digitsValue (Nat.digitChar (n % 10) :: ds) =
        (n % 10) * 10 ^ ds.length + digitsValue ds := by
      rw [digitsValue_cons, hd.2]
    simp only [Nat.toDigitsCore]
    by_cases h0 : n / 10 = 0
    · simp only [h0, if_true]
      refine ⟨hds', ?_⟩
      rw [hval, Nat.mod_eq_of_lt (by omega)]
    · simp only [h0, if_false]
      obtain ⟨h1, h2⟩ := ih (n / 10) (Nat.digitChar (n % 10) :: ds) (by omega) hds'
      refine ⟨h1, ?_⟩
      rw [h2, hval, List.length_cons, pow_succ]
      have hn10 : n = 10 * (n / 10) + n % 10 := (Nat.div_add_mod n 10).symm
      generalize n / 10 = q at hn10 ⊢
      generalize n % 10 = r at hn10 ⊢
      subst hn10
      ring

theorem toDigits_isDigits (n : Nat) : IsDigits (Nat.toDigits 10 n) :=
  (toDigitsCore_spec (n + 1) n [] (by omega) (by simp)).1

theorem digitsValue_toDigits (n : Nat) : digitsValue (Nat.toDigits 10 n) = n := by
  have := (toDigitsCore_spec (n + 1) n [] (by omega) (by simp)).2
  simpa [digitsValue, Nat.toDigits] using this

theorem toDigits_ne_nil (n : Nat) : Nat.toDigits 10 n ≠ [] := by
  simp only [Nat.toDigits, Nat.toDigitsCore]
  split
  · simp
  · intro h
    have : ∀ (fuel m : Nat) (c : Char) (ds : Str), Nat.toDigitsCore 10 fuel m (c :: ds) ≠ [] := by
      intro fuel
      induction fuel with
      | zero => intro m c ds; simp [Nat.toDigitsCore]
      | succ fuel ih =>
        intro m c ds
        simp only [Nat.toDigitsCore]
        split
        · simp
        · exact ih _ _ _
    exact this _ _ _ _ h

theorem takeWhile_digits_append (s t : Str) (hs : IsDigits s)
    (ht : ∀ c, t.head? = some c → c.isDigit = false) :
    (s ++ t).takeWhile Char.isDigit = s ∧ (s ++ t).dropWhile Char.isDigit = t := by
  induction s with
  | nil =>
    cases t with
    | nil => simp
    | cons c t =>
      have := ht c rfl
      simp [List.takeWhile, List.dropWhile, this]
  | cons d s ih =>
    have hd : d.isDigit = true := hs d (List.mem_cons_self _ _)
    have := ih (fun c hc => hs c (List.mem_cons_of_mem _ hc))
    simp [List.takeWhile, List.dropWhile, hd, this]

/-- In the exact instance `std::stod` reads an unsigned integer literal as its value. -/
theorem stod_exact_digits (a : Str) (ha : IsDigits a) (hne : a ≠ []) :
    stod exactOps a = .ok (.fin (digitsValue a : ℕ)) := by
  have h := takeWhile_digits_append a [] ha (by simp)
  simp only [List.append_nil] at h
  simp [stod, h.1, h.2, hne, exactOps]

theorem roundHalfEven_one (m : Nat) : roundHalfEven m 1 = m := by
  simp [roundHalfEven, Nat.mod_one]

theorem formatF_natural (n : Nat) :
    formatF (n : ℚ) = Nat.toDigits 10 n ++ '.' :: ['0', '0', '0', '0', '0', '0'] := by
  have hlt : ¬ ((n : ℚ) < 0) := by
    have : (0 : ℚ) ≤ n := Nat.cast_nonneg n
    exact not_lt.2 this
  have hnum : (n : ℚ).num.natAbs = n := by simp
  have hden : (n : ℚ).den = 1 := by simp
  have hdiv : n * 10 ^ 6 / 10 ^ 6 = n := Nat.mul_div_cancel _ (by norm_num)
  have hmod : n * 10 ^ 6 % 10 ^ 6 = 0 := Nat.mul_mod_left _ _
  have hz : Nat.toDigits 10 0 = ['0'] := by decide
  simp only [formatF, hnum, hden, roundHalfEven_one, hdiv, hmod, hz, if_neg hlt]
  simp

/-- In the exact instance the rendering of a natural number reads back as that number. -/
theorem readsBack_exact_natural (n : Nat) : ReadsBack exactOps (.fin (n : ℚ)) := by
  have hs : exactOps.to_string (.fin (n : ℚ)) =
      Nat.toDigits 10 n ++ '.' :: ['0', '0', '0', '0', '0', '0'] := formatF_natural n
  have hdig := toDigits_isDigits n
  constructor
  · intro c hc
    rw [hs] at hc
    rcases List.mem_append.1 hc with h | h
    · exact Or.inl (hdig c h)
    · rcases List.mem_cons.1 h with h | h
      · exact Or.inr h
      · left
        simp only [List.mem_cons, List.mem_singleton, List.not_mem_nil, or_false, or_self] at h
        subst h
        decide
  · have ht := takeWhile_digits_append (Nat.toDigits 10 n) ('.' :: ['0', '0', '0', '0', '0', '0'])
      hdig (by intro c hc; simp at hc; subst hc; decide)
    have hval : digitsValue (Nat.toDigits 10 n ++ ['0', '0', '0', '0', '0', '0']) =
        n * 10 ^ 6 := by
      rw [digitsValue_append, digitsValue_toDigits]
      have : digitsValue ['0', '0', '0', '0', '0', '0'] = 0 := by decide
      rw [this]
      simp
    have hfrac : List.takeWhile Char.isDigit ['0', '0', '0', '0', '0', '0'] =
        ['0', '0', '0', '0', '0', '0'] := by decide
    rw [hs]
    simp only [stod, ht.1, ht.2, hfrac, hval, toDigits_ne_nil n, false_and, if_false]
    simp only [exactOps, List.length_cons, List.length_nil, Nat.cast_mul, Nat.cast_pow,
      Nat.cast_ofNat]
    norm_num

theorem readsBack_exact_sum (m n : Nat) : ReadsBack exactOps (exactOps.add (.fin m) (.fin n)) := by
  have := readsBack_exact_natural (m + n)
  simpa [exactOps, Value.lift2] using this

theorem readsBack_exact_product (m n : Nat) :
    ReadsBack exactOps (exactOps.mul (.fin m) (.fin n)) := by
  have := readsBack_exact_natural (m * n)
  simpa [exactOps, Value.lift2] using this

theorem isZero_exact_natural (n : Nat) (h : n ≠ 0) : exactOps.isZero (.fin (n : ℚ)) = false := by
  simp [exactOps, h]

theorem binop_exact (op : Char) (m n : Nat) :
    binop exactOps op (.fin m) (.fin n) = .fin (exactValue op m n) := by
  unfold binop exactValue
  split
  · rfl
  · split
    · rfl
    · split
      · rfl
      · split
        · rfl
        · simp [exactOps, Value.pow]

/-! ### Position of a `-` -/

theorem unaryMinusAt_zero (expression : Str) : unaryMinusAt expression 0 = true := by
  simp [unaryMinusAt]

theorem unaryMinusAt_after (pre rest : Str) (c : Char) :
    unaryMinusAt (pre ++ c :: rest) (pre.length + 1) =
      (c == '(' || c == '*' || c == '/' || c == '^') := by
  have hget : (pre ++ c :: rest)[pre.length]? = some c := by
    rw [List.getElem?_append_right (Nat.le_refl _)]
    simp
  simp [unaryMinusAt, hget]

theorem unaryMinusAt_after_numberText (a rest : Str) (ha : IsNumberText a) (hne : a ≠ []) :
    unaryMinusAt (a ++ rest) a.length = false := by
  obtain ⟨pre, d, rfl⟩ : ∃ pre d, a = pre ++ [d] := by
    rcases List.eq_nil_or_concat a with h | ⟨pre, d, h⟩
    · exact absurd h hne
    · exact ⟨pre, d, by simpa using h⟩
  have hd : d.isDigit = true ∨ d = '.' ∨ d = ',' := ha d (by simp)
  have := unaryMinusAt_after pre rest d
  simp only [List.append_assoc, List.singleton_append, List.length_append, List.length_singleton]
  rw [this]
  have h1 : d ≠ '(' := by rintro rfl; revert hd; decide
  have h2 : d ≠ '*' := by rintro rfl; revert hd; decide
  have h3 : d ≠ '/' := by rintro rfl; revert hd; decide
  have h4 : d ≠ '^' := by rintro rfl; revert hd; decide
  simp [h1, h2, h3, h4]

theorem stod_ne_nil (ops : NumberOps Number) {s : Str} {x : Number} (h : stod ops s = .ok x) :
    s ≠ [] := by
  rintro rfl
  simp [stod] at h

theorem IsDigits.toNumberText {s : Str} (h : IsDigits s) : IsNumberText s :=
  fun c hc => Or.inl (h c hc)

theorem IsNumberText.noParen {s : Str} (h : IsNumberText s) : NoParen s := by
  intro c hc
  have := h c hc
  constructor <;> (rintro rfl; revert this; decide)

/-! ### Tokenizing literals and single operations -/

/-- A lone literal is tokenized to one operand and no operator. -/
theorem tokenize_literal (ops : NumberOps Number) (a : Str) (x : Number)
    (ha : IsNumberText a) (hx : stod ops a = .ok x) : tokenize ops a = .ok ([x], []) := by
  simp only [tokenize]
  rw [tokLoop_numChars ops _ a 0 _ ha]
  simp only [List.nil_append]
  rw [flushNumber_literal ops _ x hx]
  simp

theorem ParserExpression_literal (ops : NumberOps Number) (plugins : List (Plugin Number))
    (a : Str) (x : Number) (ha : IsNumberText a) (hx : stod ops a = .ok x) :
    ParserExpression ops plugins a = .ok x := by
  simp only [ParserExpression, tokenize_literal ops a x ha hx]
  rfl

/-- Tokenizing `a op b` for two unsigned literals gives the two operands and the operator. -/
theorem tokenize_binary (ops : NumberOps Number) (a b : Str) (x y : Number) (op : Char)
    (hop : IsPlainOperator op ∨ op = '-') (ha : IsNumberText a) (hb : IsNumberText b)
    (hx : stod ops a = .ok x) (hy : stod ops b = .ok y) :
    tokenize ops (a ++ op :: b) = .ok ([x, y], [[op]]) := by
  have hane := stod_ne_nil ops hx
  have hbody : tokBody ops (a ++ op :: b) a.length op ⟨[], [], a, [], false⟩ =
      .ok ⟨[x], [[op]], [], [], false⟩ := by
    rcases hop with h | h
    · rw [tokBody_plainOperator_literal ops _ _ op h _ x rfl hx]
      simp
    · subst h
      rw [tokBody_binaryMinus_literal ops _ _ _ x (unaryMinusAt_after_numberText a _ ha hane) hx]
      simp
  simp only [tokenize]
  rw [tokLoop_append, tokLoop_numChars ops _ a 0 _ ha]
  simp only [List.nil_append, Nat.zero_add, tokLoop, hbody]
  rw [tokLoop_numChars ops _ b _ _ hb]
  simp only [List.nil_append]
  rw [flushNumber_literal ops _ y hy]
  simp

theorem ParserExpression_binary (ops : NumberOps Number) (plugins : List (Plugin Number))
    (a b : Str) (x y : Number) (op : Char)
    (hop : IsPlainOperator op ∨ op = '-') (ha : IsNumberText a) (hb : IsNumberText b)
    (hx : stod ops a = .ok x) (hy : stod ops b = .ok y) (hdiv : op = '/' → ops.isZero y = false) :
    ParserExpression ops plugins (a ++ op :: b) = .ok (binop ops op x y) := by
  simp only [ParserExpression, tokenize_binary ops a b x y op hop ha hb hx hy]
  rw [CalculateExpression_pair ops plugins op hop x y hdiv]

theorem noParen_binary (a b : Str) (op : Char) (hop : IsPlainOperator op ∨ op = '-')
    (ha : IsNumberText a) (hb : IsNumberText b) : NoParen (a ++ op :: b) := by
  intro c hc
  rcases List.mem_append.1 hc with h | h
  · exact ha.noParen c h
  · rcases List.mem_cons.1 h with h | h
    · subst h
      rcases hop with (h | h | h | h) | h <;> subst h <;> decide
    · exact hb.noParen c h

/-- C1. Flat text `a op b`, for unsigned integer literals `a`, `b` and a binary operator `op`
among `+ - * / ^`: `ParserString` returns `x op y` for the values `x`, `y` that `std::stod`
gives the literals (with `y != 0` for `/`), the operation being the number type's own; with
exact arithmetic that is the mathematical value of `a op b`. -/
theorem ParserString_single_operator (a b : Str) (op : Char)
    (hop : op = '+' ∨ op = '-' ∨ op = '*' ∨ op = '/' ∨ op = '^')
    (ha : IsDigits a) (hb : IsDigits b) (fuel : Nat) (hfuel : (a ++ op :: b).length < fuel) :
    (∀ (Number : Type) (ops : NumberOps Number) (plugins : List (Plugin Number)) (x y : Number),
      stod ops a = .ok x → stod ops b = .ok y → (op = '/' → ops.isZero y = false) →
      ParserString ops plugins fuel (a ++ op :: b) = some (.ok (binop ops op x y))) ∧
    (a ≠ [] → b ≠ [] → (op = '/' → digitsValue b ≠ 0) → ∀ plugins : List (Plugin Value),
      ParserString exactOps plugins fuel (a ++ op :: b) =
        some (.ok (.fin (exactValue op (digitsValue a) (digitsValue b))))) := by
  have hop' : IsPlainOperator op ∨ op = '-' := by
    unfold IsPlainOperator; tauto
  have generic : ∀ (Number : Type) (ops : NumberOps Number) (plugins : List (Plugin Number))
      (x y : Number), stod ops a = .ok x → stod ops b = .ok y →
      (op = '/' → ops.isZero y = false) →
      ParserString ops plugins fuel (a ++ op :: b) = some (.ok (binop ops op x y)) := by
    intro Number ops plugins x y hx hy hdiv
    rw [ParserString_flat ops plugins _ (noParen_binary a b op hop' ha.toNumberText hb.toNumberText)
      fuel hfuel]
    rw [ParserExpression_binary ops plugins a b x y op hop' ha.toNumberText hb.toNumberText hx hy hdiv]
  refine ⟨generic, fun hane hbne hdiv plugins => ?_⟩
  rw [generic Value exactOps plugins _ _ (stod_exact_digits a ha hane)
    (stod_exact_digits b hb hbne) (fun h => isZero_exact_natural _ (hdiv h)), binop_exact]

theorem ParserString_single_operator_witness :
    ParserString exactOps [] 4 ['3', '+', '4'] = some (.ok (.fin 7)) ∧
    ParserString exactOps [] 5 ['1', '0', '/', '2'] = some (.ok (.fin 5)) ∧
    ParserString exactOps [] 4 ['2', '^', '3'] = some (.ok (.fin 8)) :=
  ⟨((ParserString_single_operator ['3'] ['4'] '+' (by decide) (by decide) (by decide) 4
      (by decide)).2 (by decide) (by decide) (by decide) []).trans (by decide!),
   ((ParserString_single_operator ['1', '0'] ['2'] '/' (by decide) (by decide) (by decide) 5
      (by decide)).2 (by decide) (by decide) (fun _ => by decide) []).trans (by decide!),
   ((ParserString_single_operator ['2'] ['3'] '^' (by decide) (by decide) (by decide) 4
      (by decide)).2 (by decide) (by decide) (by decide) []).trans (by decide!)⟩

/-! ### The three passes of `CalculateExpression` -/

theorem pass1Loop_noFunctions (ops : NumberOps Number) (plugins : List (Plugin Number)) :
    ∀ (fuel i : Nat) (numbers : List Number) (actions : List Str),
      (∀ a ∈ actions, isFunctionName a = false) →
      pass1Loop ops plugins fuel i numbers actions = .ok (numbers, actions) := by
  intro fuel
  induction fuel with
  | zero => intro i numbers actions _; rfl
  | succ fuel ih =>
    intro i numbers actions h
    simp only [pass1Loop]
    cases hget : actions[i]? with
    | none => rfl
    | some a =>
      have ha : isFunctionName a = false := h a (List.getElem?_mem hget)
      simp only [ha]
      exact ih _ _ _ h

theorem reduceLoop_collapse (ops : NumberOps Number) (sel : Str → Bool)
    (hsel : ∀ a, sel a = true → ∃ func, functions ops a = some func) :
    ∀ (rest : List (Str × Number)) (x : Number) (pn : List Number) (pa : List Str) (fuel : Nat),
      pn.length = pa.length → rest.length ≤ fuel →
      reduceLoop ops sel fuel pa.length (pn ++ x :: rest.map Prod.snd) (pa ++ rest.map Prod.fst) =
        .ok (pn ++ (collapse ops sel x rest).1 :: (collapse ops sel x rest).2.map Prod.snd,
             pa ++ (collapse ops sel x rest).2.map Prod.fst) := by
  intro rest
  induction rest with
  | nil =>
    intro x pn pa fuel _ _
    cases fuel with
    | zero => simp [reduceLoop, collapse]
    | succ k => simp [reduceLoop, collapse]
  | cons p rest ih =>
    obtain ⟨a, y⟩ := p
    intro x pn pa fuel hlen hfuel
    obtain ⟨k, rfl⟩ : ∃ k, fuel = k + 1 := ⟨fuel - 1, by simp at hfuel; omega⟩
    have hk : rest.length ≤ k := by simpa using hfuel
    have hget : (pa ++ List.map Prod.fst ((a, y) :: rest))[pa.length]? = some a := by
      rw [List.getElem?_append_right (Nat.le_refl _)]
      simp
    simp only [reduceLoop, hget]
    by_cases hs : sel a = true
    · obtain ⟨func, hf⟩ := hsel a hs
      have hn0 : (pn ++ x :: List.map Prod.snd ((a, y) :: rest))[pa.length]? = some x := by
        rw [← hlen, List.getElem?_append_right (Nat.le_refl _)]
        simp
      have hn1 : (pn ++ x :: List.map Prod.snd ((a, y) :: rest))[pa.length + 1]? = some y := by
        rw [← hlen, List.getElem?_append_right (Nat.le_add_right _ _)]
        simp
      simp only [hs, if_true, hf, hn0, hn1]
      have e1 : ((pn ++ x :: List.map Prod.snd ((a, y) :: rest)).set pa.length (func x y)).eraseIdx
          (pa.length + 1) = pn ++ func x y :: rest.map Prod.snd := by
        rw [← hlen, List.set_append_right _ _ (Nat.le_refl _)]
        simp only [Nat.sub_self, List.map_cons, List.set_cons_zero]
        rw [List.eraseIdx_append_of_length_le (Nat.le_add_right _ _)]
        simp
      have e2 : (pa ++ List.map Prod.fst ((a, y) :: rest)).eraseIdx pa.length =
          pa ++ rest.map Prod.fst := by
        rw [List.eraseIdx_append_of_length_le (Nat.le_refl _)]
        simp
      rw [e1, e2, ih (func x y) pn pa k hlen hk]
      simp [collapse, hs, applyOp, hf]
    · have hs' : sel a = false := by simpa using hs
      simp only [hs', Bool.false_eq_true, if_false]
      have e1 : pn ++ x :: List.map Prod.snd ((a, y) :: rest) =
          (pn ++ [x]) ++ y :: rest.map Prod.snd := by simp
      have e2 : pa ++ List.map Prod.fst ((a, y) :: rest) = (pa ++ [a]) ++ rest.map Prod.fst := by
        simp
      have := ih y (pn ++ [x]) (pa ++ [a]) k (by simp [hlen]) hk
      simp only [List.length_append, List.length_singleton] at this
      rw [e1, e2, this]
      simp [collapse, hs']

theorem isMulLevel_functions (ops : NumberOps Number) (a : Str) (h : isMulLevel a = true) :
    ∃ func, functions ops a = some func := by
  simp only [isMulLevel, Bool.or_eq_true, beq_iff_eq] at h
  rcases h with (h | h) | h <;> subst h <;> exact ⟨_, rfl⟩

theorem isAddLevel_functions (ops : NumberOps Number) (a : Str) (h : isAddLevel a = true) :
    ∃ func, functions ops a = some func := by
  simp only [isAddLevel, Bool.or_eq_true, beq_iff_eq] at h
  rcases h with h | h <;> subst h <;> exact ⟨_, rfl⟩

theorem collapse_snd_mem (ops : NumberOps Number) (sel : Str → Bool) :
    ∀ (rest : List (Str × Number)) (x : Number) (p : Str × Number),
      p ∈ (collapse ops sel x rest).2 → sel p.1 = false ∧ p.1 ∈ rest.map Prod.fst := by
  intro rest
  induction rest with
  | nil => intro x p h; simp [collapse] at h
  | cons q rest ih =>
    obtain ⟨a, y⟩ := q
    intro x p h
    by_cases hs : sel a = true
    · simp only [collapse, hs, if_true] at h
      have := ih _ p h
      exact ⟨this.1, List.mem_cons_of_mem _ this.2⟩
    · have hs' : sel a = false := by simpa using hs
      simp only [collapse, hs', Bool.false_eq_true, if_false, List.mem_cons] at h
      rcases h with h | h
      · subst h
        exact ⟨hs', List.mem_cons_self _ _⟩
      · have := ih _ p h
        exact ⟨this.1, List.mem_cons_of_mem _ this.2⟩

theorem collapse_all (ops : NumberOps Number) (sel : Str → Bool) :
    ∀ (rest : List (Str × Number)) (x : Number), (∀ p ∈ rest, sel p.1 = true) →
      collapse ops sel x rest = (foldOps ops x rest, []) := by
  intro rest
  induction rest with
  | nil => intro x _; rfl
  | cons q rest ih =>
    obtain ⟨a, y⟩ := q
    intro x h
    have hs : sel a = true := h _ (List.mem_cons_self _ _)
    simp only [collapse, hs, if_true, foldOps]
    exact ih _ (fun p hp => h p (List.mem_cons_of_mem _ hp))

theorem binaryTokens_level (a : Str) (h : a ∈ binaryTokens) :
    isFunctionName a = false ∧ (isMulLevel a = false → isAddLevel a = true) := by
  simp only [binaryTokens, List.mem_cons, List.mem_singleton, List.not_mem_nil, or_false] at h
  rcases h with h | h | h | h | h <;> subst h <;> decide

/-- The engine on operands `n0 .. nk` and binary operators `o1 .. ok` computes `twoLevelEval`. -/
theorem CalculateExpression_binary (ops : NumberOps Number) (plugins : List (Plugin Number))
    (n0 : Number) (rest : List (Str × Number)) (h : ∀ p ∈ rest, p.1 ∈ binaryTokens) :
    CalculateExpression ops plugins (n0 :: rest.map Prod.snd) (rest.map Prod.fst) =
      .ok (twoLevelEval ops n0 rest) := by
  have h1 : ∀ a ∈ rest.map Prod.fst, isFunctionName a = false := by
    intro a ha
    obtain ⟨p, hp, rfl⟩ := List.mem_map.1 ha
    exact (binaryTokens_level _ (h p hp)).1
  have h2 := reduceLoop_collapse ops isMulLevel (isMulLevel_functions ops) rest n0 [] []
    (rest.map Prod.fst).length rfl (by simp)
  simp only [List.nil_append, List.length_nil] at h2
  have hadd : ∀ p ∈ (collapse ops isMulLevel n0 rest).2, isAddLevel p.1 = true := by
    intro p hp
    have := collapse_snd_mem ops isMulLevel rest n0 p hp
    obtain ⟨q, hq, hqp⟩ := List.mem_map.1 this.2
    exact (binaryTokens_level _ (hqp ▸ h q hq)).2 this.1
  have h3 := reduceLoop_collapse ops isAddLevel (isAddLevel_functions ops)
    (collapse ops isMulLevel n0 rest).2 (collapse ops isMulLevel n0 rest).1 [] []
    ((collapse ops isMulLevel n0 rest).2.map Prod.fst).length rfl (by simp)
  simp only [List.nil_append, List.length_nil] at h3
  rw [collapse_all ops isAddLevel _ _ hadd] at h3
  simp only [CalculateExpression, pass1Loop_noFunctions ops plugins _ _ _ _ h1, h2, h3]
  rfl

/-! ### Bracket steps of the scan loop -/

theorem getElem?_append_cons (pre post : Str) (c : Char) :
    (pre ++ c :: post)[pre.length]? = some c := by
  rw [List.getElem?_append_right (Nat.le_refl _)]
  simp

theorem scanLoop_open (ops : NumberOps Number) (plugins : List (Plugin Number))
    (pre post : Str) (stk : List Nat) (fuel : Nat) :
    scanLoop ops plugins (fuel + 1) ⟨pre ++ '(' :: post, pre.length, stk⟩ =
      scanLoop ops plugins fuel ⟨pre ++ '(' :: post, pre.length + 1, stk ++ [pre.length]⟩ := by
  simp only [scanLoop, getElem?_append_cons, scanStep, if_true]

theorem substr_group (pre sub post : Str) :
    substr (pre ++ '(' :: (sub ++ ')' :: post)) (pre.length + 1)
      (pre.length + 1 + sub.length - pre.length - 1) = sub := by
  have e : pre ++ '(' :: (sub ++ ')' :: post) = (pre ++ ['(']) ++ (sub ++ ')' :: post) := by simp
  have hl : pre.length + 1 = (pre ++ ['(']).length := by simp
  have hn : pre.length + 1 + sub.length - pre.length - 1 = sub.length := by omega
  rw [substr, hn, e, hl, List.drop_left, List.take_left]

theorem splice_group (pre sub post s : Str) :
    insertStr (eraseStr (pre ++ '(' :: (sub ++ ')' :: post)) pre.length
      (pre.length + 1 + sub.length - pre.length + 1)) pre.length s = pre ++ s ++ post := by
  have hn : pre.length + (pre.length + 1 + sub.length - pre.length + 1) =
      (pre ++ '(' :: sub ++ [')']).length := by
    simp; omega
  have e : pre ++ '(' :: (sub ++ ')' :: post) = (pre ++ '(' :: sub ++ [')']) ++ post := by simp
  have h1 : eraseStr (pre ++ '(' :: (sub ++ ')' :: post)) pre.length
      (pre.length + 1 + sub.length - pre.length + 1) = pre ++ post := by
    rw [eraseStr, hn, List.take_left]
    rw [e, List.drop_left]
  rw [h1, insertStr, List.take_left, List.drop_left]

theorem scanLoop_close (ops : NumberOps Number) (plugins : List (Plugin Number))
    (pre sub post : Str) (stk : List Nat) (fuel : Nat) :
    scanLoop ops plugins (fuel + 1)
        ⟨pre ++ '(' :: (sub ++ ')' :: post), pre.length + 1 + sub.length, stk ++ [pre.length]⟩ =
      match ParserExpression ops plugins sub with
      | .error f => some (.error f)
      | .ok v => scanLoop ops plugins fuel
          ⟨pre ++ ops.to_string v ++ post, pre.length + (ops.to_string v).length, stk⟩ := by
  have hget : (pre ++ '(' :: (sub ++ ')' :: post))[pre.length + 1 + sub.length]? = some ')' := by
    have e : pre ++ '(' :: (sub ++ ')' :: post) = (pre ++ '(' :: sub) ++ ')' :: post := by simp
    have hl : pre.length + 1 + sub.length = (pre ++ '(' :: sub).length := by simp; omega
    rw [e, hl]
    exact getElem?_append_cons _ _ _
  have h1 : ¬ (')' : Char) = '(' := by decide
  have hlast : (stk ++ [pre.length]).getLast? = some pre.length := by simp
  simp only [scanLoop, hget, scanStep, if_neg h1, if_true, hlast, substr_group, splice_group,
    List.dropLast_concat]
  cases ParserExpression ops plugins sub <;> rfl

/-- Scanning a parenthesised flat group evaluates it and puts its rendering in its place. -/
theorem scanLoop_group (ops : NumberOps Number) (plugins : List (Plugin Number))
    (pre sub post : Str) (stk : List Nat) (fuel : Nat) (hsub : NoParen sub) :
    scanLoop ops plugins (fuel + (sub.length + 2))
        ⟨pre ++ '(' :: (sub ++ ')' :: post), pre.length, stk⟩ =
      match ParserExpression ops plugins sub with
      | .error f => some (.error f)
      | .ok v => scanLoop ops plugins fuel
          ⟨pre ++ ops.to_string v ++ post, pre.length + (ops.to_string v).length, stk⟩ := by
  rw [show fuel + (sub.length + 2) = (fuel + 1 + sub.length) + 1 by omega, scanLoop_open]
  have := scanLoop_skip ops plugins sub (pre ++ ['(']) (')' :: post) (stk ++ [pre.length])
    (fuel + 1) hsub
  simp only [List.append_assoc, List.singleton_append, List.length_append,
    List.length_singleton, List.cons_append, List.nil_append] at this
  rw [this, scanLoop_close]

/-- C2. On operands `n0 n1 .. nk` and binary operators `o1 .. ok`, `CalculateExpression` returns
the two-level reference value: runs of `* / ^` reduced from the left without precedence among
them (so `a*b^c` is `(a*b)^c` and `a^b*c` is `(a^b)*c`), then `+ -` from the left (so `a+b*c` is
`a+(b*c)`). -/
theorem CalculateExpression_eq_twoLevelEval (ops : NumberOps Number)
    (plugins : List (Plugin Number)) (n0 : Number) (operands : List Number)
    (operators : List Str) (hlen : operands.length = operators.length)
    (hbin : ∀ a ∈ operators, a ∈ binaryTokens) :
    CalculateExpression ops plugins (n0 :: operands) operators =
        .ok (twoLevelEval ops n0 (operators.zip operands)) ∧
      (∀ a b c : Number,
        twoLevelEval ops a [(['*'], b), (['^'], c)] = ops.pow (ops.mul a b) c ∧
        twoLevelEval ops a [(['^'], b), (['*'], c)] = ops.mul (ops.pow a b) c ∧
        twoLevelEval ops a [(['+'], b), (['*'], c)] = ops.add a (ops.mul b c) ∧
        twoLevelEval ops a [(['-'], b), (['+'], c)] = ops.add (ops.sub a b) c) := by
  refine ⟨?_, fun _ _ _ => ⟨rfl, rfl, rfl, rfl⟩⟩
  have h := CalculateExpression_binary ops plugins n0 (operators.zip operands)
    (fun p hp => hbin p.1 (List.of_mem_zip hp).1)
  rwa [List.map_snd_zip _ _ (Nat.le_of_eq hlen), List.map_fst_zip _ _ (Nat.le_of_eq hlen.symm)]
    at h

theorem CalculateExpression_eq_twoLevelEval_witness :
    CalculateExpression exactOps [] [.fin 2, .fin 3, .fin 4] [['+'], ['*']] = .ok (.fin 14) ∧
    CalculateExpression exactOps [] [.fin 2, .fin 3, .fin 2] [['^'], ['*']] = .ok (.fin 16) :=
  ⟨(CalculateExpression_eq_twoLevelEval exactOps [] (.fin 2) [.fin 3, .fin 4] [['+'], ['*']]
      (by decide) (by decide)).1.trans (by decide!),
   (CalculateExpression_eq_twoLevelEval exactOps [] (.fin 2) [.fin 3, .fin 2] [['^'], ['*']]
      (by decide) (by decide)).1.trans (by decide!)⟩

/-- The two staging examples as texts: `2+3*4` gives 14 and `2^3*2` gives 16. -/
theorem staging_examples :
    ParserString exactOps [] 6 "2+3*4".toList = some (.ok (.fin 14)) ∧
    ParserString exactOps [] 6 "2^3*2".toList = some (.ok (.fin 16)) := by
  decide!

/-! ### Whole texts through `ParserString` -/

theorem ParserString_of_scan (ops : NumberOps Number) (plugins : List (Plugin Number))
    (e flat : Str) (n fuel : Nat)
    (h : scanLoop ops plugins n ⟨e, 0, []⟩ = some (.ok flat)) (hn : n ≤ fuel) :
    ParserString ops plugins fuel e = some (ParserExpression ops plugins flat) := by
  simp only [ParserString, scanLoop_mono ops plugins n _ _ h fuel hn]

theorem scanLoop_tail (ops : NumberOps Number) (plugins : List (Plugin Number))
    (pre post : Str) (stk : List Nat) (hpost : NoParen post) :
    scanLoop ops plugins (post.length + 1) ⟨pre ++ post, pre.length, stk⟩ =
      some (.ok (pre ++ post)) := by
  have := scanLoop_skip ops plugins post pre [] stk 1 hpost
  simp only [List.append_nil] at this
  rw [Nat.add_comm, this, ← List.length_append]
  exact scanLoop_end ops plugins 0 _ _

theorem ReadsBack.isNumberText {ops : NumberOps Number} {v : Number} (h : ReadsBack ops v) :
    IsNumberText (ops.to_string v) := by
  intro c hc
  rcases h.1 c hc with h | h
  · exact Or.inl h
  · exact Or.inr (Or.inl h)

theorem scan_group_times (ops : NumberOps Number) (plugins : List (Plugin Number))
    (sub post : Str) (v : Number) (hsub : NoParen sub) (hpost : NoParen post)
    (hv : ParserExpression ops plugins sub = .ok v) :
    scanLoop ops plugins ((post.length + 1) + (sub.length + 2))
        ⟨'(' :: (sub ++ ')' :: post), 0, []⟩ = some (.ok (ops.to_string v ++ post)) := by
  have h1 := scanLoop_group ops plugins [] sub post [] (post.length + 1) hsub
  simp only [hv, List.nil_append, List.length_nil, Nat.zero_add] at h1
  rw [h1]
  exact scanLoop_tail ops plugins (ops.to_string v) post [] hpost

theorem ParserString_group_times (ops : NumberOps Number) (plugins : List (Plugin Number))
    (a b c : Str) (x y z : Number) (ha : IsDigits a) (hb : IsDigits b) (hc : IsDigits c)
    (hx : stod ops a = .ok x) (hy : stod ops b = .ok y) (hz : stod ops c = .ok z)
    (hr : ReadsBack ops (ops.add x y)) (fuel : Nat)
    (hfuel : (['('] ++ a ++ ['+'] ++ b ++ [')', '*'] ++ c).length < fuel) :
    ParserString ops plugins fuel (['('] ++ a ++ ['+'] ++ b ++ [')', '*'] ++ c) =
      some (.ok (ops.mul (ops.add x y) z)) := by
  have hsub : NoParen (a ++ '+' :: b) :=
    noParen_binary a b '+' (Or.inl (Or.inl rfl)) ha.toNumberText hb.toNumberText
  have hv : ParserExpression ops plugins (a ++ '+' :: b) = .ok (ops.add x y) :=
    ParserExpression_binary ops plugins a b x y '+' (Or.inl (Or.inl rfl)) ha.toNumberText
      hb.toNumberText hx hy (fun h => absurd h (by decide))
  have hpost : NoParen ('*' :: c) := by
    intro ch hch
    rcases List.mem_cons.1 hch with h | h
    · subst h; decide
    · exact hc.toNumberText.noParen ch h
  have e : ['('] ++ a ++ ['+'] ++ b ++ [')', '*'] ++ c =
      '(' :: ((a ++ '+' :: b) ++ ')' :: ('*' :: c)) := by simp
  have hscan := scan_group_times ops plugins (a ++ '+' :: b) ('*' :: c) _ hsub hpost hv
  rw [e] at hfuel ⊢
  rw [ParserString_of_scan ops plugins _ _ _ fuel hscan
    (by simp only [List.length_cons, List.length_append] at hfuel ⊢; omega)]
  rw [ParserExpression_binary ops plugins _ c _ z '*' (Or.inl (Or.inr (Or.inl rfl)))
    hr.isNumberText hc.toNumberText hr.2 hz (fun h => absurd h (by decide))]
  rfl

theorem scan_nested (ops : NumberOps Number) (plugins : List (Plugin Number))
    (sub1 sub2 : Str) (v1 v2 v3 : Number) (h1 : NoParen sub1) (h2 : NoParen sub2)
    (hv1 : ParserExpression ops plugins sub1 = .ok v1)
    (hv2 : ParserExpression ops plugins sub2 = .ok v2)
    (hv3 : ParserExpression ops plugins (ops.to_string v1 ++ '*' :: ops.to_string v2) = .ok v3) :
    scanLoop ops plugins (sub1.length + sub2.length + 8)
        ⟨'(' :: '(' :: (sub1 ++ ')' :: '*' :: '(' :: (sub2 ++ [')', ')'])), 0, []⟩ =
      some (.ok (ops.to_string v3)) := by
  -- the outer `(`
  have s1 := scanLoop_open ops plugins [] ('(' :: (sub1 ++ ')' :: '*' :: '(' :: (sub2 ++ [')', ')'])))
    [] (sub1.length + sub2.length + 7)
  simp only [List.nil_append, List.length_nil, Nat.zero_add] at s1
  -- the first group
  have s2 := scanLoop_group ops plugins ['('] sub1 ('*' :: '(' :: (sub2 ++ [')', ')'])) [0]
    (sub2.length + 5) h1
  simp only [hv1, List.singleton_append, List.length_singleton, List.cons_append,
    List.nil_append] at s2
  -- the `*` between the groups
  have s3 := scanLoop_skip ops plugins ['*'] ('(' :: ops.to_string v1)
    ('(' :: (sub2 ++ [')', ')'])) [0] (sub2.length + 4) (by decide)
  simp only [List.length_singleton, List.length_cons, List.cons_append, List.append_assoc,
    List.singleton_append, List.nil_append, List.length_nil, Nat.zero_add] at s3
  -- the second group
  have s4 := scanLoop_group ops plugins ('(' :: (ops.to_string v1 ++ ['*'])) sub2 [')'] [0]
    2 h2
  simp only [hv2, List.length_cons, List.length_append, List.length_singleton, List.cons_append,
    List.append_assoc, List.singleton_append, List.nil_append, List.length_nil,
    Nat.zero_add] at s4
  -- the outer `)`
  have s5 := scanLoop_close ops plugins [] (ops.to_string v1 ++ '*' :: ops.to_string v2) [] [] 1
  simp only [hv3, List.nil_append, List.length_nil, Nat.zero_add, List.append_nil,
    List.length_append, List.length_cons, List.append_assoc, List.cons_append] at s5
  have s6 := scanLoop_end ops plugins 0 (ops.to_string v3) []
  rw [show sub1.length + sub2.length + 8 = sub1.length + sub2.length + 7 + 1 by omega, s1,
    show sub1.length + sub2.length + 7 = sub2.length + 5 + (sub1.length + 2) by omega, s2,
    show sub2.length + 5 = sub2.length + 4 + 1 by omega,
    show 1 + (ops.to_string v1).length = (ops.to_string v1).length + 1 by omega, s3,
    show sub2.length + 4 = 2 + (sub2.length + 2) by omega, s4,
    show (ops.to_string v1).length + 1 + 1 + (ops.to_string v2).length =
      1 + ((ops.to_string v1).length + ((ops.to_string v2).length + 1)) by omega, s5]
  simpa using s6

theorem ParserString_nested_groups (ops : NumberOps Number)
    (plugins : List (Plugin Number)) (a b c d : Str) (x y z w : Number)
    (ha : IsDigits a) (hb : IsDigits b) (hc : IsDigits c) (hd : IsDigits d)
    (hx : stod ops a = .ok x) (hy : stod ops b = .ok y)
    (hz : stod ops c = .ok z) (hw : stod ops d = .ok w)
    (hxy : ReadsBack ops (ops.add x y)) (hzw : ReadsBack ops (ops.add z w))
    (hprod : ReadsBack ops (ops.mul (ops.add x y) (ops.add z w))) (fuel : Nat)
    (hfuel : (['(', '('] ++ a ++ ['+'] ++ b ++ [')', '*', '('] ++ c ++ ['+'] ++ d ++
      [')', ')']).length < fuel) :
    ParserString ops plugins fuel
      (['(', '('] ++ a ++ ['+'] ++ b ++ [')', '*', '('] ++ c ++ ['+'] ++ d ++ [')', ')']) =
      some (.ok (ops.mul (ops.add x y) (ops.add z w))) := by
  have plus : IsPlainOperator '+' ∨ '+' = '-' := Or.inl (Or.inl rfl)
  have times : IsPlainOperator '*' ∨ '*' = '-' := Or.inl (Or.inr (Or.inl rfl))
  have hv1 : ParserExpression ops plugins (a ++ '+' :: b) = .ok (ops.add x y) :=
    ParserExpression_binary ops plugins a b x y '+' plus ha.toNumberText hb.toNumberText hx hy
      (fun h => absurd h (by decide))
  have hv2 : ParserExpression ops plugins (c ++ '+' :: d) = .ok (ops.add z w) :=
    ParserExpression_binary ops plugins c d z w '+' plus hc.toNumberText hd.toNumberText hz hw
      (fun h => absurd h (by decide))
  have hv3 : ParserExpression ops plugins
      (ops.to_string (ops.add x y) ++ '*' :: ops.to_string (ops.add z w)) =
      .ok (ops.mul (ops.add x y) (ops.add z w)) :=
    ParserExpression_binary ops plugins _ _ _ _ '*' times hxy.isNumberText hzw.isNumberText
      hxy.2 hzw.2 (fun h => absurd h (by decide))
  have hscan := scan_nested ops plugins (a ++ '+' :: b) (c ++ '+' :: d) _ _ _
    (noParen_binary a b '+' plus ha.toNumberText hb.toNumberText)
    (noParen_binary c d '+' plus hc.toNumberText hd.toNumberText) hv1 hv2 hv3
  have e : ['(', '('] ++ a ++ ['+'] ++ b ++ [')', '*', '('] ++ c ++ ['+'] ++ d ++ [')', ')'] =
      '(' :: '(' :: ((a ++ '+' :: b) ++ ')' :: '*' :: '(' :: ((c ++ '+' :: d) ++ [')', ')'])) := by
    simp
  rw [e] at hfuel ⊢
  rw [ParserString_of_scan ops plugins _ _ _ fuel hscan
    (by simp only [List.length_cons, List.length_append, List.length_nil] at hfuel ⊢; omega)]
  exact congrArg some (ParserExpression_literal ops plugins _ _ hprod.isNumberText hprod.2)

/-- C3. For unsigned integer literals `a b c d`: `(a+b)*c` evaluates to `(x+y)*z` and
`((a+b)*(c+d))` to `(x+y)*(z+w)` for the values `x y z w` of the literals, each group being
evaluated first and its rendering taking its place, whenever `std::to_string` of each group
value reads back as that value; with exact arithmetic it always does, and the results are the
mathematical values. -/
theorem ParserString_parenthesised_groups (a b c d : Str)
    (ha : IsDigits a) (hb : IsDigits b) (hc : IsDigits c) (hd : IsDigits d) :
    (∀ (Number : Type) (ops : NumberOps Number) (plugins : List (Plugin Number))
      (x y z w : Number), stod ops a = .ok x → stod ops b = .ok y → stod ops c = .ok z →
      stod ops d = .ok w → ReadsBack ops (ops.add x y) →
      (∀ fuel, (['('] ++ a ++ ['+'] ++ b ++ [')', '*'] ++ c).length < fuel →
        ParserString ops plugins fuel (['('] ++ a ++ ['+'] ++ b ++ [')', '*'] ++ c) =
          some (.ok (ops.mul (ops.add x y) z))) ∧
      (ReadsBack ops (ops.add z w) → ReadsBack ops (ops.mul (ops.add x y) (ops.add z w)) →
        ∀ fuel, (['(', '('] ++ a ++ ['+'] ++ b ++ [')', '*', '('] ++ c ++ ['+'] ++ d ++
            [')', ')']).length < fuel →
          ParserString ops plugins fuel
            (['(', '('] ++ a ++ ['+'] ++ b ++ [')', '*', '('] ++ c ++ ['+'] ++ d ++ [')', ')']) =
            some (.ok (ops.mul (ops.add x y) (ops.add z w))))) ∧
    (a ≠ [] → b ≠ [] → c ≠ [] → d ≠ [] → ∀ (plugins : List (Plugin Value)) (fuel : Nat),
      ((['('] ++ a ++ ['+'] ++ b ++ [')', '*'] ++ c).length < fuel →
        ParserString exactOps plugins fuel (['('] ++ a ++ ['+'] ++ b ++ [')', '*'] ++ c) =
          some (.ok (.fin (((digitsValue a : ℚ) + digitsValue b) * digitsValue c)))) ∧
      ((['(', '('] ++ a ++ ['+'] ++ b ++ [')', '*', '('] ++ c ++ ['+'] ++ d ++
            [')', ')']).length < fuel →
        ParserString exactOps plugins fuel
          (['(', '('] ++ a ++ ['+'] ++ b ++ [')', '*', '('] ++ c ++ ['+'] ++ d ++ [')', ')']) =
          some (.ok (.fin (((digitsValue a : ℚ) + digitsValue b) *
            ((digitsValue c : ℚ) + digitsValue d)))))) := by
  refine ⟨fun Number ops plugins x y z w hx hy hz hw hxy => ⟨fun fuel hfuel =>
    ParserString_group_times ops plugins a b c x y z ha hb hc hx hy hz hxy fuel hfuel,
    fun hzw hprod fuel hfuel => ParserString_nested_groups ops plugins a b c d x y z w
      ha hb hc hd hx hy hz hw hxy hzw hprod fuel hfuel⟩, ?_⟩
  intro hane hbne hcne hdne plugins fuel
  have hx := stod_exact_digits a ha hane
  have hy := stod_exact_digits b hb hbne
  have hz := stod_exact_digits c hc hcne
  have hw := stod_exact_digits d hd hdne
  have hxy := readsBack_exact_sum (digitsValue a) (digitsValue b)
  have hzw := readsBack_exact_sum (digitsValue c) (digitsValue d)
  have hadd : ∀ m n : Nat, exactOps.add (.fin (m : ℚ)) (.fin (n : ℚ)) =
      .fin (((m + n : ℕ) : ℚ)) := by
    intro m n
    simp [exactOps, Value.lift2]
  have hprod : ReadsBack exactOps (exactOps.mul
      (exactOps.add (.fin (digitsValue a : ℚ)) (.fin (digitsValue b : ℚ)))
      (exactOps.add (.fin (digitsValue c : ℚ)) (.fin (digitsValue d : ℚ)))) := by
    rw [hadd, hadd]
    exact readsBack_exact_product _ _
  constructor
  · intro hfuel
    rw [ParserString_group_times exactOps plugins a b c _ _ _ ha hb hc hx hy hz hxy fuel hfuel]
    rfl
  · intro hfuel
    rw [ParserString_nested_groups exactOps plugins a b c d _ _ _ _ ha hb hc hd hx hy hz hw
      hxy hzw hprod fuel hfuel]
    rfl

theorem ParserString_parenthesised_groups_witness :
    ParserString exactOps [] 8 ['(', '2', '+', '3', ')', '*', '4'] = some (.ok (.fin 20)) ∧
    ParserString exactOps [] 14
      ['(', '(', '1', '+', '2', ')', '*', '(', '3', '+', '4', ')', ')'] = some (.ok (.fin 21)) :=
  ⟨(((ParserString_parenthesised_groups ['2'] ['3'] ['4'] ['4'] (by decide) (by decide)
      (by decide) (by decide)).2 (by decide) (by decide) (by decide) (by decide) [] 8).1
      (by decide)).trans (by decide!),
   (((ParserString_parenthesised_groups ['1'] ['2'] ['3'] ['4'] (by decide) (by decide)
      (by decide) (by decide)).2 (by decide) (by decide) (by decide) (by decide) [] 14).2
      (by decide)).trans (by decide!)⟩

/-! ### Unary and binary minus -/

theorem unaryMinusAt_iff (expression : Str) (i : Nat) :
    unaryMinusAt expression i = true ↔ UnaryPosition expression i := by
  simp only [unaryMinusAt, UnaryPosition, Bool.or_eq_true, Bool.and_eq_true, beq_iff_eq,
    decide_eq_true_eq]
  constructor
  · rintro (h | ⟨h0, h⟩)
    · exact Or.inl h
    · right
      refine ⟨h0, ?_⟩
      rcases h with ((h | h) | h) | h
      · exact ⟨_, h, Or.inl rfl⟩
      · exact ⟨_, h, Or.inr (Or.inl rfl)⟩
      · exact ⟨_, h, Or.inr (Or.inr (Or.inl rfl))⟩
      · exact ⟨_, h, Or.inr (Or.inr (Or.inr rfl))⟩
  · rintro (h | ⟨h0, p, hp, h⟩)
    · exact Or.inl h
    · right
      refine ⟨h0, ?_⟩
      rcases h with h | h | h | h <;> subst h <;> simp [hp]

theorem tokenize_negated_plus (ops : NumberOps Number) (a b : Str) (x y : Number)
    (ha : IsDigits a) (hb : IsDigits b) (hx : stod ops a = .ok x) (hy : stod ops b = .ok y) :
    tokenize ops (['-'] ++ a ++ ['+'] ++ b) = .ok ([ops.neg x, y], [['+']]) := by
  have e : ['-'] ++ a ++ ['+'] ++ b = '-' :: (a ++ '+' :: b) := by simp
  rw [e]
  simp only [tokenize, tokLoop]
  rw [tokBody_unaryMinus ops _ 0 _ (unaryMinusAt_zero _)]
  simp only []
  rw [tokLoop_append, tokLoop_digits ops _ a _ _ ha]
  simp only [List.nil_append, tokLoop]
  rw [tokBody_plainOperator_literal ops _ _ '+' (Or.inl rfl) _ x rfl hx]
  simp only [List.nil_append, if_true]
  rw [tokLoop_digits ops _ b _ _ hb]
  simp only [List.nil_append]
  rw [flushNumber_literal ops _ y hy]
  simp

theorem tokenize_times_negated (ops : NumberOps Number) (a b : Str) (x y : Number)
    (ha : IsDigits a) (hb : IsDigits b) (hx : stod ops a = .ok x) (hy : stod ops b = .ok y) :
    tokenize ops (a ++ ['*', '-'] ++ b) = .ok ([x, ops.neg y], [['*']]) := by
  have e : a ++ ['*', '-'] ++ b = a ++ '*' :: '-' :: b := by simp
  rw [e]
  simp only [tokenize]
  rw [tokLoop_append, tokLoop_digits ops _ a _ _ ha]
  simp only [List.nil_append, tokLoop]
  rw [tokBody_plainOperator_literal ops _ _ '*' (Or.inr (Or.inl rfl)) _ x rfl hx]
  simp only [List.nil_append, Nat.zero_add]
  rw [tokBody_unaryMinus ops _ _ _ (by rw [unaryMinusAt_after]; rfl)]
  simp only []
  rw [tokLoop_digits ops _ b _ _ hb]
  simp only [List.nil_append]
  rw [flushNumber_literal ops _ y hy]
  simp

theorem NoParen.append {s t : Str} (hs : NoParen s) (ht : NoParen t) : NoParen (s ++ t) := by
  intro c hc
  rcases List.mem_append.1 hc with h | h
  · exact hs c h
  · exact ht c h

theorem tokBody_minus (ops : NumberOps Number) (expression : Str) (i : Nat)
    (st : TokState Number) :
    tokBody ops expression i '-' st =
      if unaryMinusAt expression i then .ok { st with isNegative := true }
      else flushNumber ops
        { st with StackOfActions := st.StackOfActions ++ [['-']], FunctionStr := [] } := by
  have h1 : ¬ (('-' : Char).isDigit = true ∨ ('-' : Char) = '.' ∨ ('-' : Char) = ',') := by decide
  simp only [tokBody, if_neg h1, if_true]
  rw [matchAction_operator _ '-' (Or.inr rfl) rfl]

theorem ParserString_minus_generic (ops : NumberOps Number) (plugins : List (Plugin Number))
    (a b : Str) (x y : Number) (ha : IsDigits a) (hb : IsDigits b)
    (hx : stod ops a = .ok x) (hy : stod ops b = .ok y)
    (fuel : Nat) (hfuel : a.length + b.length + 2 < fuel) :
    ParserString ops plugins fuel (['-'] ++ a ++ ['+'] ++ b) =
      some (.ok (ops.add (ops.neg x) y)) ∧
    ParserString ops plugins fuel (a ++ ['*', '-'] ++ b) =
      some (.ok (ops.mul x (ops.neg y))) := by
  constructor
  · have hflat : NoParen (['-'] ++ a ++ ['+'] ++ b) :=
      (((show NoParen ['-'] by decide).append ha.toNumberText.noParen).append
        (show NoParen ['+'] by decide)).append hb.toNumberText.noParen
    rw [ParserString_flat ops plugins _ hflat fuel (by simp; omega)]
    simp only [ParserExpression, tokenize_negated_plus ops a b x y ha hb hx hy]
    rfl
  · have hflat : NoParen (a ++ ['*', '-'] ++ b) :=
      (ha.toNumberText.noParen.append (show NoParen ['*', '-'] by decide)).append
        hb.toNumberText.noParen
    rw [ParserString_flat ops plugins _ hflat fuel (by simp; omega)]
    simp only [ParserExpression, tokenize_times_negated ops a b x y ha hb hx hy]
    rfl

/-- C4. A `-` only sets the negation flag exactly when it stands first or right after one of
`( * / ^`; otherwise it is pushed as the binary operator (and the pending literal is flushed).
Hence, for unsigned integer literals `a`, `b` of values `x`, `y`, `-a+b` evaluates to `(-x)+y`
and `a*-b` to `x*(-y)`; with exact arithmetic these are `b-a` and `-(a*b)`. -/
theorem minus_unary_or_binary (a b : Str) (ha : IsDigits a) (hb : IsDigits b)
    (fuel : Nat) (hfuel : a.length + b.length + 2 < fuel) :
    (∀ (Number : Type) (ops : NumberOps Number) (expression : Str) (i : Nat)
        (st : TokState Number),
      (UnaryPosition expression i →
        tokBody ops expression i '-' st = .ok { st with isNegative := true }) ∧
      (¬ UnaryPosition expression i →
        tokBody ops expression i '-' st = flushNumber ops
          { st with StackOfActions := st.StackOfActions ++ [['-']], FunctionStr := [] })) ∧
    (∀ (Number : Type) (ops : NumberOps Number) (plugins : List (Plugin Number)) (x y : Number),
      stod ops a = .ok x → stod ops b = .ok y →
      ParserString ops plugins fuel (['-'] ++ a ++ ['+'] ++ b) =
        some (.ok (ops.add (ops.neg x) y)) ∧
      ParserString ops plugins fuel (a ++ ['*', '-'] ++ b) =
        some (.ok (ops.mul x (ops.neg y)))) ∧
    (a ≠ [] → b ≠ [] → ∀ plugins : List (Plugin Value),
      ParserString exactOps plugins fuel (['-'] ++ a ++ ['+'] ++ b) =
        some (.ok (.fin ((digitsValue b : ℚ) - digitsValue a))) ∧
      ParserString exactOps plugins fuel (a ++ ['*', '-'] ++ b) =
        some (.ok (.fin (-((digitsValue a : ℚ) * digitsValue b))))) := by
  refine ⟨fun Number ops expression i st => ⟨fun h => ?_, fun h => ?_⟩,
    fun Number ops plugins x y hx hy =>
      ParserString_minus_generic ops plugins a b x y ha hb hx hy fuel hfuel,
    fun hane hbne plugins => ?_⟩
  · rw [tokBody_minus, (unaryMinusAt_iff expression i).2 h]
    rfl
  · have : unaryMinusAt expression i = false := by
      cases hu : unaryMinusAt expression i
      · rfl
      · exact absurd ((unaryMinusAt_iff expression i).1 hu) h
    rw [tokBody_minus, this]
    rfl
  · have h := ParserString_minus_generic exactOps plugins a b _ _ ha hb
      (stod_exact_digits a ha hane) (stod_exact_digits b hb hbne) fuel hfuel
    rw [h.1, h.2]
    have e1 : exactOps.add (exactOps.neg (.fin (digitsValue a : ℚ))) (.fin (digitsValue b : ℚ)) =
        .fin ((digitsValue b : ℚ) - digitsValue a) := by
      show Value.fin (-(digitsValue a : ℚ) + digitsValue b) = _
      congr 1
      ring
    have e2 : exactOps.mul (.fin (digitsValue a : ℚ)) (exactOps.neg (.fin (digitsValue b : ℚ))) =
        .fin (-((digitsValue a : ℚ) * digitsValue b)) := by
      show Value.fin ((digitsValue a : ℚ) * -(digitsValue b : ℚ)) = _
      congr 1
      ring
    rw [e1, e2]
    exact ⟨rfl, rfl⟩

theorem minus_unary_or_binary_witness :
    ParserString exactOps [] 5 ['-', '3', '+', '5'] = some (.ok (.fin 2)) ∧
    ParserString exactOps [] 5 ['3', '*', '-', '2'] = some (.ok (.fin (-6))) :=
  ⟨((minus_unary_or_binary ['3'] ['5'] (by decide) (by decide) 5 (by decide)).2.2
      (by decide) (by decide) []).1.trans (by decide!),
   ((minus_unary_or_binary ['3'] ['2'] (by decide) (by decide) 5 (by decide)).2.2
      (by decide) (by decide) []).2.trans (by decide!)⟩

/-- C5. The `/` entry of `functions` answers `NAN` whenever its right operand compares equal to
zero, and the flat text `x/0` evaluates to that NaN: a returned value, not a failure. -/
theorem division_by_zero_yields_nan (ops : NumberOps Number) (plugins : List (Plugin Number))
    (lit : Str) (x z : Number) (hlit : IsNumberText lit) (hx : stod ops lit = .ok x)
    (hz : stod ops ['0'] = .ok z) (hz0 : ops.isZero z = true)
    (fuel : Nat) (hfuel : lit.length + 2 < fuel) :
    (∃ func, functions ops ['/'] = some func ∧
      ∀ u y : Number, ops.isZero y = true → func u y = ops.nan) ∧
    ParserString ops plugins fuel (lit ++ ['/', '0']) = some (.ok ops.nan) := by
  refine ⟨⟨_, rfl, fun u y hy => by simp [hy]⟩, ?_⟩
  have hop : IsPlainOperator '/' ∨ '/' = '-' := Or.inl (Or.inr (Or.inr (Or.inl rfl)))
  have hzero : IsNumberText ['0'] := by decide
  rw [ParserString_flat ops plugins _ (noParen_binary lit ['0'] '/' hop hlit hzero) fuel
    (by simp; omega)]
  have := tokenize_binary ops lit ['0'] x z '/' hop hlit hzero hx hz
  simp only [ParserExpression, this]
  simp [CalculateExpression, pass1Loop, reduceLoop, isFunctionName, isMulLevel, functions, hz0]

theorem division_by_zero_yields_nan_witness :
    ParserString exactOps [] 4 ['5', '/', '0'] = some (.ok .nan) :=
  (division_by_zero_yields_nan exactOps [] ['5'] (.fin 5) (.fin 0) (by decide) (by decide!)
    (by decide!) (by decide!) 4 (by decide)).2

/-- C6, as amended. Wrapping a flat expression `e` of value `v` in parentheses gives the result
of `ParserExpression` on the text `std::to_string(v)`; that is `v` again whenever the rendering
reads back as `v`, as it does with exact arithmetic for every natural number `v`. -/
theorem ParserString_wrapped (e : Str) (he : NoParen e) (fuel : Nat)
    (hfuel : e.length + 2 < fuel) :
    (∀ (Number : Type) (ops : NumberOps Number) (plugins : List (Plugin Number)) (v : Number),
      ParserExpression ops plugins e = .ok v →
      ParserString ops plugins fuel (['('] ++ e ++ [')']) =
          some (ParserExpression ops plugins (ops.to_string v)) ∧
        (ReadsBack ops v →
          ParserString ops plugins fuel (['('] ++ e ++ [')']) = some (.ok v))) ∧
    (∀ (plugins : List (Plugin Value)) (n : Nat),
      ParserExpression exactOps plugins e = .ok (.fin (n : ℚ)) →
      ParserString exactOps plugins fuel (['('] ++ e ++ [')']) = some (.ok (.fin (n : ℚ)))) := by
  have generic : ∀ (Number : Type) (ops : NumberOps Number) (plugins : List (Plugin Number))
      (v : Number), ParserExpression ops plugins e = .ok v →
      ParserString ops plugins fuel (['('] ++ e ++ [')']) =
          some (ParserExpression ops plugins (ops.to_string v)) ∧
        (ReadsBack ops v →
          ParserString ops plugins fuel (['('] ++ e ++ [')']) = some (.ok v)) := by
    intro Number ops plugins v hv
    have hscan := scan_group_times ops plugins e [] v he (by decide) hv
    have e1 : ['('] ++ e ++ [')'] = '(' :: (e ++ [')']) := by simp
    have h1 : ParserString ops plugins fuel (['('] ++ e ++ [')']) =
        some (ParserExpression ops plugins (ops.to_string v)) := by
      rw [e1, ParserString_of_scan ops plugins _ _ _ fuel hscan (by simp; omega)]
      simp
    refine ⟨h1, fun hr => ?_⟩
    rw [h1, ParserExpression_literal ops plugins _ v hr.isNumberText hr.2]
  exact ⟨generic, fun plugins n hv =>
    (generic Value exactOps plugins _ hv).2 (readsBack_exact_natural n)⟩

theorem ParserString_wrapped_witness :
    ParserString exactOps [] 4 ['(', '3', ')'] = some (.ok (.fin 3)) :=
  (ParserString_wrapped ['3'] (by decide) 4 (by decide)).2 [] 3 (by decide!)

/-- C6, counterexample. The flat text `1/4194304` has the value `2^-22`; wrapped in parentheses
it is rendered as `0.000000` and the result is `0`. -/
theorem wrapping_loses_decimals :
    ParserExpression exactOps [] "1/4194304".toList = .ok (.fin (1 / 4194304)) ∧
    ParserString exactOps [] 12 "(1/4194304)".toList = some (.ok (.fin 0)) ∧
    Value.fin (1 / 4194304) ≠ Value.fin 0 := by
  decide!

/-! ### Unmatched parentheses -/

theorem scanLoop_noClose (ops : NumberOps Number) (plugins : List (Plugin Number)) :
    ∀ (mid pre post : Str) (stk : List Nat) (fuel : Nat), (∀ c ∈ mid, c ≠ ')') →
      ∃ stk', scanLoop ops plugins (fuel + mid.length) ⟨pre ++ mid ++ post, pre.length, stk⟩ =
        scanLoop ops plugins fuel ⟨pre ++ mid ++ post, pre.length + mid.length, stk'⟩ := by
  intro mid
  induction mid with
  | nil => intro pre post stk fuel _; exact ⟨stk, by simp⟩
  | cons c m ih =>
    intro pre post stk fuel h
    have hc := h c (List.mem_cons_self _ _)
    have hm : ∀ d ∈ m, d ≠ ')' := fun d hd => h d (List.mem_cons_of_mem _ hd)
    have hget : (pre ++ c :: m ++ post)[pre.length]? = some c := by
      rw [List.append_assoc]
      exact getElem?_append_cons _ _ _
    have e1 : pre ++ c :: m ++ post = (pre ++ [c]) ++ m ++ post := by simp
    have hstep : ∃ stk1, scanLoop ops plugins (fuel + m.length + 1)
        ⟨pre ++ c :: m ++ post, pre.length, stk⟩ =
        scanLoop ops plugins (fuel + m.length) ⟨pre ++ c :: m ++ post, pre.length + 1, stk1⟩ := by
      by_cases hopen : c = '('
      · exact ⟨stk ++ [pre.length], by simp only [scanLoop, hget, scanStep, if_pos hopen]⟩
      · exact ⟨stk, by simp only [scanLoop, hget, scanStep, if_neg hopen, if_neg hc]⟩
    obtain ⟨stk1, h1⟩ := hstep
    obtain ⟨stk2, h2⟩ := ih (pre ++ [c]) post stk1 fuel hm
    simp only [List.length_append, List.length_singleton] at h2
    refine ⟨stk2, ?_⟩
    rw [show fuel + (c :: m).length = fuel + m.length + 1 by simp; omega, h1, e1, h2]
    simp only [List.length_cons]
    rw [show pre.length + (m.length + 1) = pre.length + 1 + m.length by omega]

theorem ParserString_noClose (ops : NumberOps Number) (plugins : List (Plugin Number))
    (e : Str) (h : ∀ c ∈ e, c ≠ ')') (fuel : Nat) (hfuel : e.length < fuel) :
    ParserString ops plugins fuel e = some (ParserExpression ops plugins e) := by
  obtain ⟨stk, hs⟩ := scanLoop_noClose ops plugins e [] [] [] 1 h
  simp only [List.nil_append, List.append_nil, List.length_nil, Nat.zero_add] at hs
  have hscan : scanLoop ops plugins (1 + e.length) ⟨e, 0, []⟩ = some (.ok e) := by
    rw [hs]
    exact scanLoop_end ops plugins 0 e stk
  exact ParserString_of_scan ops plugins e e _ fuel hscan (by omega)

theorem tokenize_open_binary (ops : NumberOps Number) (a b : Str) (x y : Number) (op : Char)
    (hop : IsPlainOperator op) (ha : IsDigits a) (hb : IsDigits b)
    (hx : stod ops a = .ok x) (hy : stod ops b = .ok y) :
    tokenize ops (['('] ++ a ++ [op] ++ b) = .ok ([x, y], []) := by
  have e : ['('] ++ a ++ [op] ++ b = '(' :: (a ++ op :: b) := by simp
  have h0 : tokBody ops ('(' :: (a ++ op :: b)) 0 '(' ⟨[], [], [], [], false⟩ =
      .ok ⟨[], [], [], ['('], false⟩ := rfl
  have h1 : ¬ (op.isDigit = true ∨ op = '.' ∨ op = ',') := by
    rcases hop with h | h | h | h <;> subst h <;> decide
  have h2 : ¬ op = '-' := by rcases hop with h | h | h | h <;> subst h <;> decide
  have h3 : ¬ op = ' ' := by rcases hop with h | h | h | h <;> subst h <;> decide
  have hm : ∀ st : TokState Number, st.FunctionStr = ['(', op] → matchAction st = st := by
    intro st hst
    obtain ⟨ns, as, num, fs, neg⟩ := st
    simp only at hst
    subst hst
    rcases hop with h | h | h | h <;> subst h <;> rfl
  have hbody : tokBody ops ('(' :: (a ++ op :: b)) (0 + 1 + a.length) op
      ⟨[], [], a, ['('], false⟩ = .ok ⟨[x], [], [], ['(', op], false⟩ := by
    simp only [tokBody, if_neg h1, if_neg h2, if_neg h3]
    rw [flushNumber_literal ops _ x (by simpa using hx)]
    simp only [List.nil_append, List.singleton_append]
    rw [hm _ rfl]
    simp
  rw [e]
  simp only [tokenize, tokLoop, h0]
  rw [tokLoop_append, tokLoop_digits ops _ a _ _ ha]
  simp only [List.nil_append, tokLoop, hbody]
  rw [tokLoop_digits ops _ b _ _ hb]
  simp only [List.nil_append]
  rw [flushNumber_literal ops _ y hy]
  simp

/-- C7, as amended. A `(` that is never closed is not reported: on a text without `)` the scan
loop changes nothing and `ParserString` returns what `ParserExpression` returns on the unchanged
text; for `(a op b` with `op` among `+ * / ^` that is the value of `a`. -/
theorem unmatched_open_not_reported (ops : NumberOps Number) (plugins : List (Plugin Number))
    (e : Str) (h : ∀ c ∈ e, c ≠ ')') (fuel : Nat) (hfuel : e.length < fuel) :
    ParserString ops plugins fuel e = some (ParserExpression ops plugins e) ∧
    ∀ (a b : Str) (x y : Number) (op : Char), IsPlainOperator op → IsDigits a → IsDigits b →
      stod ops a = .ok x → stod ops b = .ok y →
      ParserExpression ops plugins (['('] ++ a ++ [op] ++ b) = .ok x := by
  refine ⟨ParserString_noClose ops plugins e h fuel hfuel, ?_⟩
  intro a b x y op hop ha hb hx hy
  simp only [ParserExpression, tokenize_open_binary ops a b x y op hop ha hb hx hy]
  rfl

theorem unmatched_open_not_reported_witness :
    ParserString exactOps [] 5 ['(', '2', '+', '3'] =
      some (ParserExpression exactOps [] ['(', '2', '+', '3']) ∧
    ParserExpression exactOps [] ['(', '2', '+', '3'] = .ok (.fin 2) :=
  ⟨(unmatched_open_not_reported exactOps [] ['(', '2', '+', '3'] (by decide) 5 (by decide)).1,
   (unmatched_open_not_reported exactOps [] ['(', '2', '+', '3'] (by decide) 5 (by decide)).2
      ['2'] ['3'] (.fin 2) (.fin 3) '+' (Or.inl rfl) (by decide) (by decide) (by decide!)
      (by decide!)⟩

/-- C7, counterexample. The text `(2+3` has an unmatched `(` and evaluates to the number `2`. -/
theorem unmatched_open_returns_number :
    ParserString exactOps [] 5 "(2+3".toList = some (.ok (.fin 2)) := by
  decide!

/-- A `)` met while the bracket stack is empty: `LeftBracketIndex.back()` is called on an empty
vector. -/
theorem ParserString_unmatched_close (ops : NumberOps Number) (plugins : List (Plugin Number))
    (e post : Str) (he : NoParen e) (fuel : Nat) (hfuel : e.length < fuel) :
    ParserString ops plugins fuel (e ++ ')' :: post) = some (.error .undefined) := by
  obtain ⟨k, rfl⟩ : ∃ k, fuel = (k + 1) + e.length := ⟨fuel - e.length - 1, by omega⟩
  have hs := scanLoop_skip ops plugins e [] (')' :: post) [] (k + 1) he
  simp only [List.nil_append, List.length_nil, Nat.zero_add] at hs
  have h1 : ¬ (')' : Char) = '(' := by decide
  simp only [ParserString, hs, scanLoop, getElem?_append_cons, scanStep, if_neg h1, if_true,
    List.getLast?_nil]

/-- C8. On `2+3)` the `)` is met with an empty bracket stack: the unguarded
`LeftBracketIndex.back()` is undefined behaviour, where the claim requires a reported error. -/
theorem unmatched_close_unguarded :
    ParserString exactOps [] 5 "2+3)".toList = some (.error .undefined) := by
  decide!

/-! ### A provider that answers NaN -/

theorem pass1Loop_skip (ops : NumberOps Number) (plugins : List (Plugin Number))
    (numbers : List Number) :
    ∀ (pre done post : List Str) (fuel : Nat), (∀ a ∈ pre, isFunctionName a = false) →
      pass1Loop ops plugins (fuel + pre.length) done.length numbers (done ++ pre ++ post) =
        pass1Loop ops plugins fuel (done.length + pre.length) numbers (done ++ pre ++ post) := by
  intro pre
  induction pre with
  | nil => intro done post fuel _; simp
  | cons a pre ih =>
    intro done post fuel h
    have ha : isFunctionName a = false := h a (List.mem_cons_self _ _)
    have hget : (done ++ a :: pre ++ post)[done.length]? = some a := by
      rw [List.append_assoc, List.getElem?_append_right (Nat.le_refl _)]
      simp
    have e1 : done ++ a :: pre ++ post = (done ++ [a]) ++ pre ++ post := by simp
    have := ih (done ++ [a]) post fuel (fun b hb => h b (List.mem_cons_of_mem _ hb))
    simp only [List.length_append, List.length_singleton] at this
    rw [show fuel + (a :: pre).length = fuel + pre.length + 1 by simp; omega]
    simp only [pass1Loop, hget, ha]
    rw [e1, this]
    simp only [List.length_cons]
    rw [show done.length + (pre.length + 1) = done.length + 1 + pre.length by omega]
    rfl

theorem CalculateExpression_provider_nan (ops : NumberOps Number)
    (plugins : List (Plugin Number)) (numbers : List Number) (pre post : List Str) (f : Str)
    (r : Number) (hpre : ∀ a ∈ pre, isFunctionName a = false) (hf : isFunctionName f = true)
    (hcall : callPlugins f numbers pre.length plugins = .ok (some r))
    (hnan : ops.isnan r = true) :
    CalculateExpression ops plugins numbers (pre ++ f :: post) = .error (.exited 1) := by
  have hskip := pass1Loop_skip ops plugins numbers pre [] (f :: post) (post.length + 1) hpre
  simp only [List.nil_append, List.length_nil, Nat.zero_add] at hskip
  have hlen : (pre ++ f :: post).length = post.length + 1 + pre.length := by
    simp; omega
  have hget : (pre ++ f :: post)[pre.length]? = some f := by
    rw [List.getElem?_append_right (Nat.le_refl _)]
    simp
  simp only [CalculateExpression, hlen, hskip, pass1Loop, hget, hf, if_true, hcall, hnan]

/-- C9, as amended. When the first function token of a flat input is answered by a provider with
success and a NaN, the evaluation ends in `exit(1)`: no exception reaches the `catch` of the
read loop, and the iteration ends the process. -/
theorem provider_nan_ends_process (ops : NumberOps Number) (plugins : List (Plugin Number))
    (e : Str) (numbers : List Number) (pre post : List Str) (f : Str) (r : Number)
    (he : NoParen e) (htok : tokenize ops e = .ok (numbers, pre ++ f :: post))
    (hpre : ∀ a ∈ pre, isFunctionName a = false) (hf : isFunctionName f = true)
    (hcall : callPlugins f numbers pre.length plugins = .ok (some r))
    (hnan : ops.isnan r = true) (fuel : Nat) (hfuel : e.length < fuel) :
    ParserString ops plugins fuel e = some (.error (.exited 1)) ∧
    mainIteration ops plugins fuel e = some (.processExit 1) := by
  have h : ParserString ops plugins fuel e = some (.error (.exited 1)) := by
    rw [ParserString_flat ops plugins e he fuel hfuel]
    simp only [ParserExpression, htok]
    rw [CalculateExpression_provider_nan ops plugins numbers pre post f r hpre hf hcall hnan]
  exact ⟨h, by simp only [mainIteration, h]⟩

theorem provider_nan_ends_process_witness :
    ParserString exactOps [logOfNegative] 6 ['-', 'l', 'o', 'g', '1'] =
      some (.error (.exited 1)) ∧
    mainIteration exactOps [logOfNegative] 6 ['-', 'l', 'o', 'g', '1'] = some (.processExit 1) :=
  provider_nan_ends_process exactOps [logOfNegative] ['-', 'l', 'o', 'g', '1'] [.fin (-1)] [] []
    ['l', 'o', 'g'] .nan (by decide) (by decide!) (by decide) (by decide) (by decide!)
    (by decide) 6 (by decide)

/-- C9, counterexample. With a provider that answers `log` of a negative argument with NaN, the
input `-log1` makes the iteration of the read loop end the process with status 1; the line
`Mistake: ` of the `catch` clause is not reached. -/
theorem provider_nan_not_caught :
    mainIteration exactOps [logOfNegative] 6 "-log1".toList = some (.processExit 1) ∧
    ∀ e : Exception,
      mainIteration exactOps [logOfNegative] 6 "-log1".toList ≠ some (.printedMistake e) := by
  have h : mainIteration exactOps [logOfNegative] 6 "-log1".toList = some (.processExit 1) := by
    decide!
  refine ⟨h, fun e => ?_⟩
  rw [h]
  exact fun hc => nomatch hc

/-- C10. With a space before the `-`, `3* -2` no longer evaluates like `3*-2`: the look-behind
of the `-` branch sees the space, takes the `-` for the binary operator, and pass 3 then reads
`numbers[1]` of a one-element vector. -/
theorem space_before_minus_changes_result :
    ParserString exactOps [] 5 "3*-2".toList = some (.ok (.fin (-6))) ∧
    ParserString exactOps [] 6 "3* -2".toList = some (.error .undefined) := by
  decide!

/-! ### Literals with a comma -/

/-- The conversion stops at a `,`: the digits after it do not reach the number. -/
theorem stod_comma_stops (ops : NumberOps Number) (p q : Str) (hp : IsDigits p) :
    stod ops (p ++ ',' :: q) = stod ops p := by
  have h1 := takeWhile_digits_append p (',' :: q) hp (by intro c hc; simp at hc; subst hc; decide)
  have h2 := takeWhile_digits_append p [] hp (by simp)
  simp only [List.append_nil] at h2
  unfold stod
  rw [h1.1, h1.2, h2.1, h2.2]
  rfl

/-- The text `p,q` is tokenized to the single operand that `p` alone denotes. -/
theorem tokenize_comma (ops : NumberOps Number) (p q : Str) (x : Number) (hp : IsDigits p)
    (hq : IsDigits q) (hx : stod ops p = .ok x) :
    tokenize ops (p ++ ',' :: q) = .ok ([x], []) := by
  have htext : IsNumberText (p ++ ',' :: q) := by
    intro c hc
    rcases List.mem_append.1 hc with h | h
    · exact Or.inl (hp c h)
    · rcases List.mem_cons.1 h with h | h
      · exact Or.inr (Or.inr h)
      · exact Or.inl (hq c h)
  exact tokenize_literal ops _ x htext (by rw [stod_comma_stops ops p q hp]; exact hx)

/-- C11. The text `1,5` is tokenized to the single operand `1`, the text `1.5` to `3/2`: the
tokenizer collects the `,` into the literal, but the conversion stops in front of it. -/
theorem comma_is_not_a_decimal_point :
    tokenize exactOps "1,5".toList = .ok ([.fin 1], []) ∧
    tokenize exactOps "1.5".toList = .ok ([.fin (3 / 2)], []) ∧
    ParserString exactOps [] 4 "1,5".toList = some (.ok (.fin 1)) := by
  decide!

/-- C12. The texts `3+`, `+3`, `3++4` and `3+-2` have an operator without a right operand: no
failure is reported, pass 3 reads `numbers[i + 1]` past the end of the vector. -/
theorem missing_operand_unguarded :
    ParserString exactOps [] 3 "3+".toList = some (.error .undefined) ∧
    ParserString exactOps [] 3 "+3".toList = some (.error .undefined) ∧
    ParserString exactOps [] 5 "3++4".toList = some (.error .undefined) ∧
    ParserString exactOps [] 5 "3+-2".toList = some (.error .undefined) := by
  decide!

/-- C17. The text `(5/0)+1` evaluates to the finite value `1`: the NaN of the group is spliced in
as the letters `nan`, which the tokenizer collects as an unknown symbol. -/
theorem nan_lost_in_substitution :
    ParserExpression exactOps [] "5/0".toList = .ok .nan ∧
    ParserString exactOps [] 8 "(5/0)+1".toList = some (.ok (.fin 1)) := by
  decide!

/-- C18. With a negative group value the texts `1+(2-3)` and `1-(2-3)` become `1+-1.000000` and
`1--1.000000`; the `-` of the rendering is taken for a binary operator and pass 3 reads
`numbers[1]` of a one-element vector.  With a non-negative group value the substitution is
transparent. -/
theorem negative_group_after_additive :
    ParserString exactOps [] 8 "1+(2-3)".toList = some (.error .undefined) ∧
    ParserString exactOps [] 8 "1-(2-3)".toList = some (.error .undefined) ∧
    ParserString exactOps [] 8 "1+(3-2)".toList = some (.ok (.fin 2)) ∧
    ParserString exactOps [] 8 "1-(3-2)".toList = some (.ok (.fin 0)) := by
  decide!

/-! ### The state of the engine at its return -/

/-- The value `CalculateExpression` returns is the first operand left by the three passes. -/
theorem CalculateExpression_of_passes (ops : NumberOps Number) (plugins : List (Plugin Number))
    (numbers : List Number) (actions : List Str) (x : Number) (ns : List Number)
    (as : List Str) (h : passes ops plugins numbers actions = .ok (x :: ns, as)) :
    CalculateExpression ops plugins numbers actions = .ok x := by
  unfold passes at h
  unfold CalculateExpression
  cases h1 : pass1Loop ops plugins actions.length 0 numbers actions with
  | error f => simp [h1] at h
  | ok s1 =>
    obtain ⟨numbers1, actions1⟩ := s1
    simp only [h1] at h ⊢
    cases h2 : reduceLoop ops isMulLevel actions1.length 0 numbers1 actions1 with
    | error f => simp [h2] at h
    | ok s2 =>
      obtain ⟨numbers2, actions2⟩ := s2
      simp only [h2] at h ⊢
      simp only [h]

/-- On binary operators with one operand more, the three passes end with the single value
`twoLevelEval` and no operator. -/
theorem passes_binary (ops : NumberOps Number) (plugins : List (Plugin Number))
    (n0 : Number) (rest : List (Str × Number)) (h : ∀ p ∈ rest, p.1 ∈ binaryTokens) :
    passes ops plugins (n0 :: rest.map Prod.snd) (rest.map Prod.fst) =
      .ok ([twoLevelEval ops n0 rest], []) := by
  have h1 : ∀ a ∈ rest.map Prod.fst, isFunctionName a = false := by
    intro a ha
    obtain ⟨p, hp, rfl⟩ := List.mem_map.1 ha
    exact (binaryTokens_level _ (h p hp)).1
  have h2 := reduceLoop_collapse ops isMulLevel (isMulLevel_functions ops) rest n0 [] []
    (rest.map Prod.fst).length rfl (by simp)
  simp only [List.nil_append, List.length_nil] at h2
  have hadd : ∀ p ∈ (collapse ops isMulLevel n0 rest).2, isAddLevel p.1 = true := by
    intro p hp
    have := collapse_snd_mem ops isMulLevel rest n0 p hp
    obtain ⟨q, hq, hqp⟩ := List.mem_map.1 this.2
    exact (binaryTokens_level _ (hqp ▸ h q hq)).2 this.1
  have h3 := reduceLoop_collapse ops isAddLevel (isAddLevel_functions ops)
    (collapse ops isMulLevel n0 rest).2 (collapse ops isMulLevel n0 rest).1 [] []
    ((collapse ops isMulLevel n0 rest).2.map Prod.fst).length rfl (by simp)
  simp only [List.nil_append, List.length_nil] at h3
  rw [collapse_all ops isAddLevel _ _ hadd] at h3
  simp only [passes, pass1Loop_noFunctions ops plugins _ _ _ _ h1, h2, h3]
  rfl

/-- C13. On operands `n0 n1 .. nk` and binary operators `o1 .. ok` the three passes end with an
empty operator sequence and exactly one operand, which `CalculateExpression` returns: no access
is out of range (the outcome is not undefined behaviour) and the empty-vector branch is not
taken. -/
theorem CalculateExpression_safe_on_binary (ops : NumberOps Number)
    (plugins : List (Plugin Number)) (n0 : Number) (operands : List Number)
    (operators : List Str) (hlen : operands.length = operators.length)
    (hbin : ∀ a ∈ operators, a ∈ binaryTokens) :
    ∃ v : Number,
      passes ops plugins (n0 :: operands) operators = .ok ([v], []) ∧
      CalculateExpression ops plugins (n0 :: operands) operators = .ok v ∧
      CalculateExpression ops plugins (n0 :: operands) operators ≠ .error .undefined ∧
      CalculateExpression ops plugins (n0 :: operands) operators ≠
        .error (.thrown .out_of_range) := by
  have h := passes_binary ops plugins n0 (operators.zip operands)
    (fun p hp => hbin p.1 (List.of_mem_zip hp).1)
  rw [List.map_snd_zip _ _ (Nat.le_of_eq hlen), List.map_fst_zip _ _ (Nat.le_of_eq hlen.symm)]
    at h
  have hc : CalculateExpression ops plugins (n0 :: operands) operators =
      .ok (twoLevelEval ops n0 (operators.zip operands)) := by
    exact CalculateExpression_of_passes ops plugins _ _ _ _ _ h
  refine ⟨_, h, hc, ?_, ?_⟩ <;> rw [hc] <;> exact fun hne => nomatch hne

theorem CalculateExpression_safe_on_binary_witness :
    ∃ v : Value,
      passes exactOps [] [.fin 2, .fin 3, .fin 4] [['+'], ['*']] = .ok ([v], []) ∧
      CalculateExpression exactOps [] [.fin 2, .fin 3, .fin 4] [['+'], ['*']] = .ok v ∧
      CalculateExpression exactOps [] [.fin 2, .fin 3, .fin 4] [['+'], ['*']] ≠
        .error .undefined ∧
      CalculateExpression exactOps [] [.fin 2, .fin 3, .fin 4] [['+'], ['*']] ≠
        .error (.thrown .out_of_range) :=
  CalculateExpression_safe_on_binary exactOps [] (.fin 2) [.fin 3, .fin 4] [['+'], ['*']]
    (by decide) (by decide)

/-! ### Pass 1 and the providers -/

/-- The providers are asked in order; the first success ends the loop over them. -/
theorem callPlugins_first_success (name : Str) (numbers : List Number) (i : Nat) (x r : Number)
    (before after : List (Plugin Number)) (pk : Plugin Number)
    (hnum : numbers[i]? = some x)
    (hbefore : ∀ p ∈ before, (p.function name x).1 = false)
    (hk : pk.function name x = (true, r)) :
    callPlugins name numbers i (before ++ pk :: after) = .ok (some r) := by
  induction before with
  | nil => simp [callPlugins, hnum, hk]
  | cons p before ih =>
    have hp : (p.function name x).1 = false := hbefore p (List.mem_cons_self _ _)
    simp only [List.cons_append, callPlugins, hnum, hp]
    exact ih (fun q hq => hbefore q (List.mem_cons_of_mem _ hq))

theorem callPlugins_no_success (name : Str) (numbers : List Number) (i : Nat) (x : Number)
    (plugins : List (Plugin Number)) (hnum : numbers[i]? = some x)
    (hall : ∀ p ∈ plugins, (p.function name x).1 = false) :
    callPlugins name numbers i plugins = .ok none := by
  induction plugins with
  | nil => rfl
  | cons p plugins ih =>
    have hp : (p.function name x).1 = false := hall p (List.mem_cons_self _ _)
    simp only [callPlugins, hnum, hp]
    exact ih (fun q hq => hall q (List.mem_cons_of_mem _ hq))

/-- C15. In pass 1 at a function-name token `name` at index `i`, with `pk` the first provider
reporting success on `(name, numbers[i])` and its value `r` not NaN: the loop goes on, at the
same index, with `numbers[i]` replaced by `r` and the token erased; nothing else changes, and
the providers registered after `pk` are not asked. -/
theorem pass1_first_provider_wins (ops : NumberOps Number) (name : Str)
    (numbers : List Number) (actions : List Str) (i : Nat) (x r : Number)
    (before after : List (Plugin Number)) (pk : Plugin Number)
    (hname : isFunctionName name = true) (hact : actions[i]? = some name)
    (hnum : numbers[i]? = some x)
    (hbefore : ∀ p ∈ before, (p.function name x).1 = false)
    (hk : pk.function name x = (true, r)) (hnan : ops.isnan r = false) (fuel : Nat) :
    pass1Loop ops (before ++ pk :: after) (fuel + 1) i numbers actions =
        pass1Loop ops (before ++ pk :: after) fuel i (numbers.set i r) (actions.eraseIdx i) ∧
      pass1Log ops (before ++ pk :: after) (fuel + 1) i numbers actions =
        (numbers.set i r, actions.eraseIdx i) ::
          pass1Log ops (before ++ pk :: after) fuel i (numbers.set i r) (actions.eraseIdx i) ∧
      (numbers.set i r)[i]? = some r ∧
      (∀ j, j ≠ i → (numbers.set i r)[j]? = numbers[j]?) ∧
      (numbers.set i r).length = numbers.length ∧
      actions.eraseIdx i = actions.take i ++ actions.drop (i + 1) ∧
      callPlugins name numbers i (before ++ pk :: after) =
        callPlugins name numbers i (before ++ [pk]) := by
  have hcall := callPlugins_first_success name numbers i x r before after pk hnum hbefore hk
  have hcall' := callPlugins_first_success name numbers i x r before [] pk hnum hbefore hk
  have hi : i < numbers.length := by
    rcases List.getElem?_eq_some.1 hnum with ⟨h, _⟩
    exact h
  refine ⟨?_, ?_, ?_, ?_, ?_, ?_, ?_⟩
  · simp only [pass1Loop, hact, hname, if_true, hcall, hnan, Bool.false_eq_true, if_false]
  · simp only [pass1Log, hact, hname, if_true, hcall, hnan, Bool.false_eq_true, if_false]
  · simp [hi]
  · intro j hj
    rw [List.getElem?_set_ne (Ne.symm hj)]
  · simp
  · exact List.eraseIdx_eq_take_drop_succ actions i
  · rw [hcall, hcall']

theorem pass1_first_provider_wins_witness :
    pass1Loop exactOps [logOfNegative, sinAtZero, answersOne] 1 0 [.fin 0] [['s', 'i', 'n']] =
      .ok ([.fin 0], []) :=
  ((pass1_first_provider_wins exactOps ['s', 'i', 'n'] [.fin 0] [['s', 'i', 'n']] 0 (.fin 0)
    (.fin 0) [logOfNegative] [answersOne] sinAtZero (by decide) (by decide) (by decide)
    (by decide!) (by decide!) (by decide) 0).1).trans (by decide!)

/-! ### Function tokens no provider serves -/

theorem pass1Loop_unserved (ops : NumberOps Number) (plugins : List (Plugin Number))
    (numbers : List Number) (actions : List Str)
    (hno : ∀ i name, actions[i]? = some name → isFunctionName name = true →
      callPlugins name numbers i plugins = .ok none) :
    ∀ fuel i, pass1Loop ops plugins fuel i numbers actions = .ok (numbers, actions) := by
  intro fuel
  induction fuel with
  | zero => intro i; rfl
  | succ fuel ih =>
    intro i
    simp only [pass1Loop]
    cases hget : actions[i]? with
    | none => rfl
    | some a =>
      simp only []
      by_cases hf : isFunctionName a = true
      · simp only [hf, if_true, hno i a hget hf]
        exact ih _
      · simp only [hf, if_false]
        exact ih _

theorem isFunctionName_not_level (f : Str) (hf : isFunctionName f = true) :
    isMulLevel f = false ∧ isAddLevel f = false ∧ f ∉ binaryTokens := by
  simp only [isFunctionName, Bool.or_eq_true, beq_iff_eq] at hf
  rcases hf with ((((h | h) | h) | h) | h) | h <;> subst h <;> decide

theorem reduceLoop_skip_token (ops : NumberOps Number) (sel : Str → Bool)
    (numbers : List Number) (actions : List Str) (i fuel : Nat) (f : Str)
    (hget : actions[i]? = some f) (hsel : sel f = false) :
    reduceLoop ops sel (fuel + 1) i numbers actions =
      reduceLoop ops sel fuel (i + 1) numbers actions := by
  simp only [reduceLoop, hget, hsel, Bool.false_eq_true, if_false]

theorem filter_eraseIdx_of_false {α : Type} (p : α → Bool) :
    ∀ (l : List α) (i : Nat) (a : α), l[i]? = some a → p a = false →
      (l.eraseIdx i).filter p = l.filter p := by
  intro l
  induction l with
  | nil => intro i a h; simp at h
  | cons b l ih =>
    intro i a h hp
    cases i with
    | zero =>
      simp only [List.getElem?_cons_zero, Option.some.injEq] at h
      subst h
      simp [List.eraseIdx, List.filter, hp]
    | succ i =>
      simp only [List.getElem?_cons_succ] at h
      simp only [List.eraseIdx_cons_succ, List.filter_cons]
      rw [ih i a h hp]

theorem reduceLoop_filter (ops : NumberOps Number) (sel : Str → Bool) (p : Str → Bool)
    (hp : ∀ a, sel a = true → p a = false) :
    ∀ (fuel i : Nat) (numbers : List Number) (actions : List Str)
      (s : List Number × List Str),
      reduceLoop ops sel fuel i numbers actions = .ok s → s.2.filter p = actions.filter p := by
  intro fuel
  induction fuel with
  | zero =>
    intro i numbers actions s h
    simp only [reduceLoop, Except.ok.injEq] at h
    rw [← h]
  | succ fuel ih =>
    intro i numbers actions s h
    simp only [reduceLoop] at h
    cases hget : actions[i]? with
    | none =>
      simp only [hget, Except.ok.injEq] at h
      rw [← h]
    | some a =>
      simp only [hget] at h
      by_cases hs : sel a = true
      · simp only [hs, if_true] at h
        cases hf : functions ops a with
        | none =>
          simp only [hf] at h
          exact ih _ _ _ _ h
        | some func =>
          simp only [hf] at h
          cases hx : numbers[i]? with
          | none => simp [hx] at h
          | some x =>
            cases hy : numbers[i + 1]? with
            | none => simp [hx, hy] at h
            | some y =>
              simp only [hx, hy] at h
              rw [ih _ _ _ _ h, filter_eraseIdx_of_false p actions i a hget (hp a hs)]
      · simp only [hs, if_false] at h
        exact ih _ _ _ _ h

/-- C16. When no provider reports success for any function-name token of the operator sequence
(as with an empty provider list), pass 1 leaves both vectors as they are and raises nothing;
passes 2 and 3 step over such a token, and every function-name token is still in the operator
sequence when the three passes are over. -/
theorem unserved_function_token_stays (ops : NumberOps Number) (plugins : List (Plugin Number))
    (numbers : List Number) (actions : List Str)
    (hno : ∀ i name, actions[i]? = some name → isFunctionName name = true →
      callPlugins name numbers i plugins = .ok none) :
    pass1Loop ops plugins actions.length 0 numbers actions = .ok (numbers, actions) ∧
    pass1Log ops plugins actions.length 0 numbers actions = [] ∧
    (∀ (sel : Str → Bool) (numbers' : List Number) (actions' : List Str) (i fuel : Nat)
        (f : Str), sel = isMulLevel ∨ sel = isAddLevel → actions'[i]? = some f →
        isFunctionName f = true →
        reduceLoop ops sel (fuel + 1) i numbers' actions' =
          reduceLoop ops sel fuel (i + 1) numbers' actions') ∧
    (∀ numbers3 actions3, passes ops plugins numbers actions = .ok (numbers3, actions3) →
      actions3.filter isFunctionName = actions.filter isFunctionName) ∧
    (∀ x f, numbers = [x] → actions = [f] → isFunctionName f = true →
      passes ops plugins numbers actions = .ok ([x], [f]) ∧
      CalculateExpression ops plugins numbers actions = .ok x) := by
  have h1 := pass1Loop_unserved ops plugins numbers actions hno
  have hmul : ∀ a, isMulLevel a = true → isFunctionName a = false := by
    intro a ha
    cases hf : isFunctionName a
    · rfl
    · rw [(isFunctionName_not_level a hf).1] at ha
      exact absurd ha (by decide)
  have hadd : ∀ a, isAddLevel a = true → isFunctionName a = false := by
    intro a ha
    cases hf : isFunctionName a
    · rfl
    · rw [(isFunctionName_not_level a hf).2.1] at ha
      exact absurd ha (by decide)
  have hlog : ∀ fuel i, pass1Log ops plugins fuel i numbers actions = [] := by
    intro fuel
    induction fuel with
    | zero => intro i; rfl
    | succ fuel ih =>
      intro i
      simp only [pass1Log]
      cases hget : actions[i]? with
      | none => rfl
      | some a =>
        simp only []
        by_cases hf : isFunctionName a = true
        · simp only [hf, if_true, hno i a hget hf]
          exact ih _
        · simp only [hf, if_false]
          exact ih _
  have h4 : ∀ numbers3 actions3, passes ops plugins numbers actions = .ok (numbers3, actions3) →
      actions3.filter isFunctionName = actions.filter isFunctionName := by
    intro numbers3 actions3 hp
    simp only [passes, h1] at hp
    cases h2 : reduceLoop ops isMulLevel actions.length 0 numbers actions with
    | error f => simp [h2] at hp
    | ok s2 =>
      obtain ⟨numbers2, actions2⟩ := s2
      simp only [h2] at hp
      have e2 := reduceLoop_filter ops isMulLevel isFunctionName hmul _ _ _ _ _ h2
      have e3 := reduceLoop_filter ops isAddLevel isFunctionName hadd _ _ _ _ _ hp
      exact e3.trans e2
  refine ⟨h1 _ _, hlog _ _, ?_, h4, ?_⟩
  · intro sel numbers' actions' i fuel f hsel hget hf
    have := isFunctionName_not_level f hf
    rcases hsel with h | h <;> subst h
    · exact reduceLoop_skip_token ops _ numbers' actions' i fuel f hget this.1
    · exact reduceLoop_skip_token ops _ numbers' actions' i fuel f hget this.2.1
  · intro x f hn ha hf
    have hlev := isFunctionName_not_level f hf
    have hp : passes ops plugins numbers actions = .ok ([x], [f]) := by
      simp only [passes, h1]
      subst hn ha
      simp [reduceLoop, hlev.1, hlev.2.1]
    exact ⟨hp, CalculateExpression_of_passes ops plugins _ _ _ _ _ hp⟩

theorem unserved_function_token_stays_witness :
    passes exactOps [] [.fin 0] [['s', 'i', 'n']] = .ok ([.fin 0], [['s', 'i', 'n']]) ∧
    CalculateExpression exactOps [] [.fin 0] [['s', 'i', 'n']] = .ok (.fin 0) :=
  (unserved_function_token_stays exactOps [] [.fin 0] [['s', 'i', 'n']]
    (fun _ _ _ _ => rfl)).2.2.2.2 (.fin 0) ['s', 'i', 'n'] rfl rfl (by decide)

/-- With no providers the text `sin0` returns `0`. -/
theorem sin0_without_providers :
    tokenize exactOps "sin0".toList = .ok ([.fin 0], [['s', 'i', 'n']]) ∧
    ParserString exactOps [] 5 "sin0".toList = some (.ok (.fin 0)) := by
  decide!

/-! ### The vectors after every removal step -/

/-- The result of pass 1 is the last logged state (the initial one when nothing was removed). -/
theorem pass1Loop_last (ops : NumberOps Number) (plugins : List (Plugin Number)) :
    ∀ (fuel i : Nat) (numbers : List Number) (actions : List Str)
      (s : List Number × List Str),
      pass1Loop ops plugins fuel i numbers actions = .ok s →
      ((numbers, actions) :: pass1Log ops plugins fuel i numbers actions).getLast? = some s := by
  intro fuel
  induction fuel with
  | zero =>
    intro i numbers actions s h
    simp only [pass1Loop, Except.ok.injEq] at h
    simp [pass1Log, h]
  | succ fuel ih =>
    intro i numbers actions s h
    simp only [pass1Loop] at h
    simp only [pass1Log]
    cases hget : actions[i]? with
    | none =>
      simp only [hget, Except.ok.injEq] at h
      simp [h]
    | some a =>
      simp only [hget] at h ⊢
      by_cases hf : isFunctionName a = true
      · simp only [hf, if_true] at h ⊢
        cases hc : callPlugins a numbers i plugins with
        | error f => simp [hc] at h
        | ok r =>
          cases r with
          | none =>
            simp only [hc] at h ⊢
            exact ih _ _ _ _ h
          | some res =>
            simp only [hc] at h ⊢
            by_cases hn : ops.isnan res = true
            · simp [hn] at h
            · simp only [hn, if_false] at h ⊢
              rw [List.getLast?_cons_cons]
              exact ih _ _ _ _ h
      · simp only [hf, if_false] at h ⊢
        exact ih _ _ _ _ h

/-- The result of pass 2 or 3 is the last logged state. -/
theorem reduceLoop_last (ops : NumberOps Number) (sel : Str → Bool) :
    ∀ (fuel i : Nat) (numbers : List Number) (actions : List Str)
      (s : List Number × List Str),
      reduceLoop ops sel fuel i numbers actions = .ok s →
      ((numbers, actions) :: reduceLog ops sel fuel i numbers actions).getLast? = some s := by
  intro fuel
  induction fuel with
  | zero =>
    intro i numbers actions s h
    simp only [reduceLoop, Except.ok.injEq] at h
    simp [reduceLog, h]
  | succ fuel ih =>
    intro i numbers actions s h
    simp only [reduceLoop] at h
    simp only [reduceLog]
    cases hget : actions[i]? with
    | none =>
      simp only [hget, Except.ok.injEq] at h
      simp [h]
    | some a =>
      simp only [hget] at h ⊢
      by_cases hs : sel a = true
      · simp only [hs, if_true] at h ⊢
        cases hf : functions ops a with
        | none =>
          simp only [hf] at h ⊢
          exact ih _ _ _ _ h
        | some func =>
          simp only [hf] at h ⊢
          cases hx : numbers[i]? with
          | none => simp [hx] at h
          | some x =>
            cases hy : numbers[i + 1]? with
            | none => simp [hx, hy] at h
            | some y =>
              simp only [hx, hy] at h ⊢
              rw [List.getLast?_cons_cons]
              exact ih _ _ _ _ h
      · simp only [hs, if_false] at h ⊢
        exact ih _ _ _ _ h

theorem countP_eraseIdx {α : Type} (p : α → Bool) :
    ∀ (l : List α) (i : Nat) (a : α), l[i]? = some a →
      (l.eraseIdx i).countP p + (if p a then 1 else 0) = l.countP p := by
  intro l
  induction l with
  | nil => intro i a h; simp at h
  | cons b l ih =>
    intro i a h
    cases i with
    | zero =>
      simp only [List.getElem?_cons_zero, Option.some.injEq] at h
      subst h
      simp only [List.eraseIdx_cons_zero, List.countP_cons]
    | succ i =>
      simp only [List.getElem?_cons_succ] at h
      simp only [List.eraseIdx_cons_succ, List.countP_cons]
      have := ih i a h
      omega

/-- The relation between the two vectors that every removal step keeps. -/
theorem pass1Log_invariant (ops : NumberOps Number) (plugins : List (Plugin Number)) :
    ∀ (fuel i : Nat) (numbers : List Number) (actions : List Str),
      numbers.length = binaryCount actions + 1 →
      ∀ s ∈ pass1Log ops plugins fuel i numbers actions, s.1.length = binaryCount s.2 + 1 := by
  intro fuel
  induction fuel with
  | zero => intro i numbers actions _ s hs; simp [pass1Log] at hs
  | succ fuel ih =>
    intro i numbers actions hinv s hs
    simp only [pass1Log] at hs
    cases hget : actions[i]? with
    | none => simp [hget] at hs
    | some a =>
      simp only [hget] at hs
      by_cases hf : isFunctionName a = true
      · simp only [hf, if_true] at hs
        cases hc : callPlugins a numbers i plugins with
        | error f => simp [hc] at hs
        | ok r =>
          cases r with
          | none =>
            simp only [hc] at hs
            exact ih _ _ _ hinv s hs
          | some res =>
            simp only [hc] at hs
            have hcount : binaryCount (actions.eraseIdx i) = binaryCount actions := by
              have := countP_eraseIdx (fun a => decide (a ∈ binaryTokens)) actions i a hget
              have hnb : decide (a ∈ binaryTokens) = false := by
                simpa using (isFunctionName_not_level a hf).2.2
              simp only [hnb, Bool.false_eq_true, if_false, Nat.add_zero] at this
              exact this
            have hinv' : (numbers.set i res).length = binaryCount (actions.eraseIdx i) + 1 := by
              rw [hcount, List.length_set]
              exact hinv
            rcases List.mem_cons.1 hs with h | h
            · rw [h]
              exact hinv'
            · by_cases hn : ops.isnan res = true
              · simp [hn] at h
              · simp only [hn, if_false] at h
                exact ih _ _ _ hinv' s h
      · simp only [hf, if_false] at hs
        exact ih _ _ _ hinv s hs

theorem reduceLog_invariant (ops : NumberOps Number) (sel : Str → Bool)
    (hsel : ∀ a, sel a = true → a ∈ binaryTokens) :
    ∀ (fuel i : Nat) (numbers : List Number) (actions : List Str),
      numbers.length = binaryCount actions + 1 →
      ∀ s ∈ reduceLog ops sel fuel i numbers actions, s.1.length = binaryCount s.2 + 1 := by
  intro fuel
  induction fuel with
  | zero => intro i numbers actions _ s hs; simp [reduceLog] at hs
  | succ fuel ih =>
    intro i numbers actions hinv s hs
    simp only [reduceLog] at hs
    cases hget : actions[i]? with
    | none => simp [hget] at hs
    | some a =>
      simp only [hget] at hs
      by_cases hsa : sel a = true
      · simp only [hsa, if_true] at hs
        cases hf : functions ops a with
        | none =>
          simp only [hf] at hs
          exact ih _ _ _ hinv s hs
        | some func =>
          simp only [hf] at hs
          cases hx : numbers[i]? with
          | none => simp [hx] at hs
          | some x =>
            cases hy : numbers[i + 1]? with
            | none => simp [hx, hy] at hs
            | some y =>
              simp only [hx, hy] at hs
              have hi : i + 1 < numbers.length := by
                rcases List.getElem?_eq_some.1 hy with ⟨h, _⟩
                exact h
              have hcount : binaryCount (actions.eraseIdx i) + 1 = binaryCount actions := by
                have := countP_eraseIdx (fun a => decide (a ∈ binaryTokens)) actions i a hget
                have hb : decide (a ∈ binaryTokens) = true := by simpa using hsel a hsa
                simp only [hb, if_true] at this
                exact this
              have hinv' : ((numbers.set i (func x y)).eraseIdx (i + 1)).length =
                  binaryCount (actions.eraseIdx i) + 1 := by
                rw [List.length_eraseIdx, List.length_set]
                simp only [hi, if_true]
                omega
              rcases List.mem_cons.1 hs with h | h
              · rw [h]
                exact hinv'
              · exact ih _ _ _ hinv' s h
      · simp only [hsa, if_false] at hs
        exact ih _ _ _ hinv s hs

theorem isLevel_binary (a : Str) :
    (isMulLevel a = true → a ∈ binaryTokens) ∧ (isAddLevel a = true → a ∈ binaryTokens) := by
  constructor
  · intro h
    simp only [isMulLevel, Bool.or_eq_true, beq_iff_eq] at h
    rcases h with (h | h) | h <;> subst h <;> decide
  · intro h
    simp only [isAddLevel, Bool.or_eq_true, beq_iff_eq] at h
    rcases h with h | h <;> subst h <;> decide

/-- Every state logged during the three passes has one operand more than binary operators,
when the vectors enter `CalculateExpression` that way. -/
theorem engineLog_invariant (ops : NumberOps Number) (plugins : List (Plugin Number))
    (numbers : List Number) (actions : List Str)
    (hentry : numbers.length = binaryCount actions + 1) :
    ∀ s ∈ engineLog ops plugins numbers actions, s.1.length = binaryCount s.2 + 1 := by
  intro s hs
  simp only [engineLog, List.mem_append] at hs
  have inv1 := pass1Log_invariant ops plugins actions.length 0 numbers actions hentry
  rcases hs with hs | hs
  · exact inv1 s hs
  · cases h1 : pass1Loop ops plugins actions.length 0 numbers actions with
    | error f => simp [h1] at hs
    | ok s1 =>
      obtain ⟨numbers1, actions1⟩ := s1
      simp only [h1, List.mem_append] at hs
      have hmem1 := List.mem_of_getLast?_eq_some (pass1Loop_last ops plugins _ _ _ _ _ h1)
      have hinv1 : numbers1.length = binaryCount actions1 + 1 := by
        rcases List.mem_cons.1 hmem1 with h | h
        · cases h
          exact hentry
        · exact inv1 _ h
      have inv2 := reduceLog_invariant ops isMulLevel (fun a => (isLevel_binary a).1)
        actions1.length 0 numbers1 actions1 hinv1
      rcases hs with hs | hs
      · exact inv2 s hs
      · cases h2 : reduceLoop ops isMulLevel actions1.length 0 numbers1 actions1 with
        | error f => simp [h2] at hs
        | ok s2 =>
          obtain ⟨numbers2, actions2⟩ := s2
          simp only [h2] at hs
          have hmem2 := List.mem_of_getLast?_eq_some (reduceLoop_last ops isMulLevel _ _ _ _ _ h2)
          have hinv2 : numbers2.length = binaryCount actions2 + 1 := by
            rcases List.mem_cons.1 hmem2 with h | h
            · cases h
              exact hinv1
            · exact inv2 _ h
          exact reduceLog_invariant ops isAddLevel (fun a => (isLevel_binary a).2)
            actions2.length 0 numbers2 actions2 hinv2 s hs

/-! ### Tokenizing a flat expression of operands and binary operators -/

theorem tokLoop_functionName (ops : NumberOps Number) (expression : Str) (i : Nat) (f : Str)
    (hf : isFunctionName f = true) (ns : List Number) (as : List Str) (neg : Bool) :
    tokLoop ops expression i f ⟨ns, as, [], [], neg⟩ = .ok ⟨ns, as ++ [f], [], [], neg⟩ := by
  simp only [isFunctionName, Bool.or_eq_true, beq_iff_eq] at hf
  rcases hf with ((((h | h) | h) | h) | h) | h <;> subst h <;> rfl

theorem tokLoop_functionNames (ops : NumberOps Number) (expression : Str) :
    ∀ (fs : List Str) (i : Nat) (ns : List Number) (as : List Str) (neg : Bool),
      (∀ f ∈ fs, isFunctionName f = true) →
      tokLoop ops expression i fs.flatten ⟨ns, as, [], [], neg⟩ =
        .ok ⟨ns, as ++ fs, [], [], neg⟩ := by
  intro fs
  induction fs with
  | nil => intro i ns as neg _; simp [tokLoop]
  | cons f fs ih =>
    intro i ns as neg h
    rw [List.flatten_cons, tokLoop_append,
      tokLoop_functionName ops expression i f (h f (List.mem_cons_self _ _))]
    simp only []
    rw [ih _ _ _ _ (fun g hg => h g (List.mem_cons_of_mem _ hg))]
    simp

theorem tokLoop_operand (ops : NumberOps Number) (expression : Str) (t : Operand)
    (ht : t.WellFormed) (tail : Str) (i : Nat) (ns : List Number) (as : List Str) :
    tokLoop ops expression i (t.text ++ tail) ⟨ns, as, [], [], false⟩ =
      tokLoop ops expression (i + t.text.length) tail ⟨ns, as ++ t.fs, t.lit, [], false⟩ := by
  rw [tokLoop_append]
  have h1 : tokLoop ops expression i t.text ⟨ns, as, [], [], false⟩ =
      .ok ⟨ns, as ++ t.fs, t.lit, [], false⟩ := by
    rw [Operand.text, tokLoop_append, tokLoop_functionNames ops expression t.fs i ns as false ht.1]
    simp only []
    rw [tokLoop_numChars ops expression t.lit _ _ ht.2.1]
    simp
  rw [h1]

theorem unaryMinusAt_after_literal (pre a rest : Str) (ha : IsNumberText a) (hne : a ≠ []) :
    unaryMinusAt (pre ++ a ++ rest) (pre ++ a).length = false := by
  obtain ⟨b, d, rfl⟩ : ∃ b d, a = b ++ [d] := by
    rcases List.eq_nil_or_concat a with h | ⟨b, d, h⟩
    · exact absurd h hne
    · exact ⟨b, d, by simpa using h⟩
  have hd : d.isDigit = true ∨ d = '.' ∨ d = ',' := ha d (by simp)
  have := unaryMinusAt_after (pre ++ b) rest d
  have e1 : pre ++ (b ++ [d]) ++ rest = (pre ++ b) ++ d :: rest := by simp
  have e2 : (pre ++ (b ++ [d])).length = (pre ++ b).length + 1 := by simp; omega
  rw [e1, e2, this]
  have h1 : d ≠ '(' := by rintro rfl; revert hd; decide
  have h2 : d ≠ '*' := by rintro rfl; revert hd; decide
  have h3 : d ≠ '/' := by rintro rfl; revert hd; decide
  have h4 : d ≠ '^' := by rintro rfl; revert hd; decide
  simp [h1, h2, h3, h4]

theorem tokLoop_flat (ops : NumberOps Number) (val : Operand → Number) :
    ∀ (rest : List (Char × Operand)) (t0 : Operand) (done : Str) (ns : List Number)
      (as : List Str),
      (∀ t ∈ t0 :: rest.map Prod.snd, t.WellFormed ∧ stod ops t.lit = .ok (val t)) →
      (∀ p ∈ rest, IsPlainOperator p.1 ∨ p.1 = '-') →
      (tokLoop ops (done ++ flatText t0 rest) done.length (flatText t0 rest)
          ⟨ns, as, [], [], false⟩).bind (flushNumber ops) =
        .ok ⟨ns ++ (t0 :: rest.map Prod.snd).map val, as ++ flatActions t0 rest, [], [],
          false⟩ := by
  intro rest
  induction rest with
  | nil =>
    intro t0 done ns as hwf _
    have h0 := hwf t0 (List.mem_cons_self _ _)
    have := tokLoop_operand ops (done ++ t0.text) t0 h0.1 [] done.length ns as
    simp only [List.append_nil] at this
    simp only [flatText, this, tokLoop, Except.bind]
    rw [flushNumber_literal ops _ (val t0) h0.2]
    simp [flatActions]
  | cons p rest ih =>
    obtain ⟨op, t⟩ := p
    intro t0 done ns as hwf hops
    have h0 := hwf t0 (List.mem_cons_self _ _)
    have hop := hops (op, t) (List.mem_cons_self _ _)
    have hwf' : ∀ u ∈ t :: rest.map Prod.snd, u.WellFormed ∧ stod ops u.lit = .ok (val u) :=
      fun u hu => hwf u (List.mem_cons_of_mem _ hu)
    have hops' : ∀ q ∈ rest, IsPlainOperator q.1 ∨ q.1 = '-' :=
      fun q hq => hops q (List.mem_cons_of_mem _ hq)
    have hbody : tokBody ops (done ++ (t0.text ++ op :: flatText t rest))
        (done.length + t0.text.length) op ⟨ns, as ++ t0.fs, t0.lit, [], false⟩ =
        .ok ⟨ns ++ [val t0], as ++ t0.fs ++ [[op]], [], [], false⟩ := by
      rcases hop with h | h
      · rw [tokBody_plainOperator_literal ops _ _ op h _ (val t0) rfl h0.2]
        simp
      · subst h
        have hu := unaryMinusAt_after_literal (done ++ t0.fs.flatten) t0.lit
          ('-' :: flatText t rest) h0.1.2.1 h0.1.2.2
        have e1 : done ++ t0.fs.flatten ++ t0.lit ++ '-' :: flatText t rest =
            done ++ (t0.text ++ '-' :: flatText t rest) := by
          simp [Operand.text]
        have e2 : (done ++ t0.fs.flatten ++ t0.lit).length = done.length + t0.text.length := by
          simp [Operand.text]
        rw [e1, e2] at hu
        rw [tokBody_binaryMinus_literal ops _ _ _ (val t0) hu h0.2]
        simp
    have hih := ih t (done ++ t0.text ++ [op]) (ns ++ [val t0]) (as ++ t0.fs ++ [[op]])
      hwf' hops'
    have e3 : done ++ t0.text ++ [op] ++ flatText t rest =
        done ++ (t0.text ++ op :: flatText t rest) := by simp
    have e4 : (done ++ t0.text ++ [op]).length = done.length + t0.text.length + 1 := by
      simp; omega
    rw [e3, e4] at hih
    simp only [flatText]
    rw [tokLoop_operand ops _ t0 h0.1 _ done.length ns as]
    simp only [tokLoop, hbody]
    rw [hih]
    simp [flatActions]

/-- Tokenizing `t0 o1 t1 ... ok tk` gives the literal values in order and the function names
and operators in order. -/
theorem tokenize_flat (ops : NumberOps Number) (val : Operand → Number) (t0 : Operand)
    (rest : List (Char × Operand))
    (hwf : ∀ t ∈ t0 :: rest.map Prod.snd, t.WellFormed ∧ stod ops t.lit = .ok (val t))
    (hops : ∀ p ∈ rest, IsPlainOperator p.1 ∨ p.1 = '-') :
    tokenize ops (flatText t0 rest) =
      .ok ((t0 :: rest.map Prod.snd).map val, flatActions t0 rest) := by
  have h := tokLoop_flat ops val rest t0 [] [] [] hwf hops
  simp only [List.nil_append, List.length_nil] at h
  simp only [tokenize]
  cases hl : tokLoop ops (flatText t0 rest) 0 (flatText t0 rest) ⟨[], [], [], [], false⟩ with
  | error f => simp [hl, Except.bind] at h
  | ok st =>
    simp only [hl, Except.bind] at h
    simp only [h]

theorem binaryCount_flatActions (t0 : Operand) (rest : List (Char × Operand))
    (hwf : ∀ t ∈ t0 :: rest.map Prod.snd, t.WellFormed)
    (hops : ∀ p ∈ rest, IsPlainOperator p.1 ∨ p.1 = '-') :
    binaryCount (flatActions t0 rest) = rest.length := by
  have hfs : ∀ fs : List Str, (∀ f ∈ fs, isFunctionName f = true) → binaryCount fs = 0 := by
    intro fs h
    simp only [binaryCount, List.countP_eq_zero, decide_eq_true_eq]
    exact fun f hf => (isFunctionName_not_level f (h f hf)).2.2
  induction rest generalizing t0 with
  | nil =>
    simp only [flatActions, List.length_nil]
    exact hfs _ (hwf t0 (List.mem_cons_self _ _)).1
  | cons p rest ih =>
    obtain ⟨op, t⟩ := p
    have hop : [op] ∈ binaryTokens := by
      rcases hops (op, t) (List.mem_cons_self _ _) with (h | h | h | h) | h <;>
        simp only at h <;> subst h <;> decide
    have h1 := hfs _ (hwf t0 (List.mem_cons_self _ _)).1
    have h2 := ih t (fun u hu => hwf u (List.mem_cons_of_mem _ hu))
      (fun q hq => hops q (List.mem_cons_of_mem _ hq))
    simp only [binaryCount] at h1 h2 ⊢
    simp only [flatActions, List.countP_append, List.countP_cons, h1, h2, hop, decide_True,
      if_true, List.length_cons]
    omega

theorem binaryCount_eq_length (actions : List Str) (h : ∀ a ∈ actions, a ∈ binaryTokens) :
    binaryCount actions = actions.length := by
  simp only [binaryCount, List.countP_eq_length, decide_eq_true_eq]
  exact h

/-- C14, as amended. For a flat expression `t0 o1 t1 ... ok tk` of operands (an unsigned
literal, possibly with function names in front) and binary operators, the vectors entering
`CalculateExpression` and the vectors after every removal step of the three passes have one
operand more than binary-operator tokens; that is `len(operands) == len(operators) + 1` in
every such state whose operator sequence holds no function name. -/
theorem operand_count_invariant (ops : NumberOps Number) (plugins : List (Plugin Number))
    (val : Operand → Number) (t0 : Operand) (rest : List (Char × Operand))
    (hwf : ∀ t ∈ t0 :: rest.map Prod.snd, t.WellFormed ∧ stod ops t.lit = .ok (val t))
    (hops : ∀ p ∈ rest, IsPlainOperator p.1 ∨ p.1 = '-') :
    tokenize ops (flatText t0 rest) =
        .ok ((t0 :: rest.map Prod.snd).map val, flatActions t0 rest) ∧
      ∀ s ∈ ((t0 :: rest.map Prod.snd).map val, flatActions t0 rest) ::
          engineLog ops plugins ((t0 :: rest.map Prod.snd).map val) (flatActions t0 rest),
        s.1.length = binaryCount s.2 + 1 ∧
        ((∀ a ∈ s.2, a ∈ binaryTokens) → s.1.length = s.2.length + 1) := by
  refine ⟨tokenize_flat ops val t0 rest hwf hops, ?_⟩
  have hentry : ((t0 :: rest.map Prod.snd).map val).length =
      binaryCount (flatActions t0 rest) + 1 := by
    rw [binaryCount_flatActions t0 rest (fun t ht => (hwf t ht).1) hops]
    simp
  have hall : ∀ s ∈ ((t0 :: rest.map Prod.snd).map val, flatActions t0 rest) ::
      engineLog ops plugins ((t0 :: rest.map Prod.snd).map val) (flatActions t0 rest),
      s.1.length = binaryCount s.2 + 1 := by
    intro s hs
    rcases List.mem_cons.1 hs with h | h
    · rw [h]
      exact hentry
    · exact engineLog_invariant ops plugins _ _ hentry s h
  intro s hs
  refine ⟨hall s hs, fun hb => ?_⟩
  rw [hall s hs, binaryCount_eq_length s.2 hb]

theorem operand_count_invariant_witness :
    tokenize exactOps "sin0+2*3".toList =
        .ok ([.fin 0, .fin 2, .fin 3], [['s', 'i', 'n'], ['+'], ['*']]) ∧
      ∀ s ∈ ([Value.fin 0, .fin 2, .fin 3], [['s', 'i', 'n'], ['+'], ['*']]) ::
          engineLog exactOps [sinAtZero] [.fin 0, .fin 2, .fin 3]
            [['s', 'i', 'n'], ['+'], ['*']],
        s.1.length = binaryCount s.2 + 1 ∧
        ((∀ a ∈ s.2, a ∈ binaryTokens) → s.1.length = s.2.length + 1) :=
  operand_count_invariant exactOps [sinAtZero] (fun t => .fin (digitsValue t.lit))
    ⟨[['s', 'i', 'n']], ['0']⟩ [('+', ⟨[], ['2']⟩), ('*', ⟨[], ['3']⟩)]
    (by
      intro t ht
      simp only [List.map_cons, List.map_nil, List.mem_cons, List.mem_singleton,
        List.not_mem_nil, or_false] at ht
      rcases ht with rfl | rfl | rfl <;> exact ⟨by decide, by decide!⟩)
    (by decide)

/-- C14, counterexample. With a provider serving `sin` the flat text `sin0` evaluates to a
number, and it enters `CalculateExpression` with one operand and one operator. -/
theorem function_token_is_an_operator_entry :
    tokenize exactOps "sin0".toList = .ok ([.fin 0], [['s', 'i', 'n']]) ∧
    ParserExpression exactOps [sinAtZero] "sin0".toList = .ok (.fin 0) ∧
    [Value.fin 0].length ≠ [['s', 'i', 'n']].length + 1 := by
  decide!

/-! ### The bracket stack and the scanned part of the text -/

theorem openIndicesFrom_append (p q : Str) :
    ∀ k, openIndicesFrom k (p ++ q) = openIndicesFrom k p ++ openIndicesFrom (k + p.length) q := by
  induction p with
  | nil => intro k; simp [openIndicesFrom]
  | cons c p ih =>
    intro k
    have := ih (k + 1)
    rw [show k + 1 + p.length = k + (p.length + 1) by omega] at this
    rw [List.cons_append]
    simp only [openIndicesFrom, List.length_cons, this]
    split <;> simp

theorem openIndicesFrom_noOpen (s : Str) (h : ∀ c ∈ s, c ≠ '(') :
    ∀ k, openIndicesFrom k s = [] := by
  induction s with
  | nil => intro k; rfl
  | cons c s ih =>
    intro k
    have hc : c ≠ '(' := h c (List.mem_cons_self _ _)
    simp only [openIndicesFrom, if_neg hc]
    exact ih (fun d hd => h d (List.mem_cons_of_mem _ hd)) _

theorem mem_openIndicesFrom (s : Str) :
    ∀ k j, j ∈ openIndicesFrom k s → k ≤ j ∧ s[j - k]? = some '(' := by
  induction s with
  | nil => intro k j h; simp [openIndicesFrom] at h
  | cons c s ih =>
    intro k j h
    simp only [openIndicesFrom] at h
    have hrec : j ∈ openIndicesFrom (k + 1) s → k ≤ j ∧ (c :: s)[j - k]? = some '(' := by
      intro hj
      obtain ⟨h1, h2⟩ := ih (k + 1) j hj
      refine ⟨by omega, ?_⟩
      rw [show j - k = (j - (k + 1)) + 1 by omega, List.getElem?_cons_succ]
      exact h2
    by_cases hc : c = '('
    · simp only [hc, if_true, List.mem_cons] at h
      rcases h with h | h
      · subst h
        simp [hc]
      · exact hc ▸ hrec h
    · simp only [hc, if_false] at h
      exact hrec h

theorem openIndices_points_at_open (pre post : Str) (j : Nat) (h : j ∈ openIndices pre) :
    (pre ++ post)[j]? = some '(' := by
  have := (mem_openIndicesFrom pre 0 j h).2
  simp only [Nat.sub_zero] at this
  have hj : j < pre.length := by
    rcases List.getElem?_eq_some.1 this with ⟨hlt, _⟩
    exact hlt
  rw [List.getElem?_append_left hj]
  exact this

/-- The most recently pushed index is that of the last `(` of the scanned part. -/
theorem openIndices_split_last :
    ∀ (pre : Str) (stk : List Nat) (l : Nat), openIndices pre = stk ++ [l] →
      ∃ p1 sub : Str, pre = p1 ++ '(' :: sub ∧ p1.length = l ∧ openIndices p1 = stk ∧
        ∀ c ∈ sub, c ≠ '(' := by
  intro pre
  induction pre using List.reverseRecOn with
  | nil =>
    intro stk l h
    simp [openIndices, openIndicesFrom] at h
  | append_singleton p c ih =>
    intro stk l h
    simp only [openIndices, openIndicesFrom_append, Nat.zero_add, openIndicesFrom] at h
    by_cases hc : c = '('
    · simp only [hc, if_true] at h
      obtain ⟨h1, h2⟩ := List.append_inj' h rfl
      refine ⟨p, [], by simp [hc], ?_, h1, by simp⟩
      simpa using h2
    · simp only [hc, if_false, List.append_nil] at h
      obtain ⟨p1, sub, hp, hl, hs, hsub⟩ := ih stk l h
      refine ⟨p1, sub ++ [c], by simp [hp], hl, hs, ?_⟩
      intro d hd
      rcases List.mem_append.1 hd with hd | hd
      · exact hsub d hd
      · simp only [List.mem_singleton] at hd
        rw [hd]
        exact hc

theorem scanStep_close (ops : NumberOps Number) (plugins : List (Plugin Number))
    (pre sub post : Str) (stk : List Nat) (v : Number)
    (hv : ParserExpression ops plugins sub = .ok v) :
    scanStep ops plugins
        ⟨pre ++ '(' :: (sub ++ ')' :: post), pre.length + 1 + sub.length, stk ++ [pre.length]⟩
        ')' =
      .ok ⟨pre ++ ops.to_string v ++ post, pre.length + (ops.to_string v).length, stk⟩ := by
  have h1 : ¬ (')' : Char) = '(' := by decide
  have hlast : (stk ++ [pre.length]).getLast? = some pre.length := by simp
  simp only [scanStep, if_neg h1, if_true, hlast, substr_group, splice_group,
    List.dropLast_concat, hv]

theorem scanStep_close_error (ops : NumberOps Number) (plugins : List (Plugin Number))
    (pre sub post : Str) (stk : List Nat) (f : Failure)
    (hv : ParserExpression ops plugins sub = .error f) :
    scanStep ops plugins
        ⟨pre ++ '(' :: (sub ++ ')' :: post), pre.length + 1 + sub.length, stk ++ [pre.length]⟩
        ')' = .error f := by
  have h1 : ¬ (')' : Char) = '(' := by decide
  have hlast : (stk ++ [pre.length]).getLast? = some pre.length := by simp
  simp only [scanStep, if_neg h1, if_true, hlast, substr_group, splice_group,
    List.dropLast_concat, hv]

theorem head_of_getElem?_append (pre post : Str) (c : Char)
    (h : (pre ++ post)[pre.length]? = some c) : ∃ rest, post = c :: rest := by
  rw [List.getElem?_append_right (Nat.le_refl _), Nat.sub_self] at h
  cases post with
  | nil => simp at h
  | cons d rest =>
    simp only [List.getElem?_cons_zero, Option.some.injEq] at h
    exact ⟨rest, by rw [h]⟩

/-- The shape of the state when the loop stands on a `)` with a non-empty stack: the text
between the most recently pushed `(` and the `)` holds no parenthesis. -/
theorem scanInvariant_at_close (text : Str) (st : ScanState) (hinv : ScanInvariant text st)
    (hc : st.expression[st.i]? = some ')') (l : Nat)
    (hl : st.LeftBracketIndex.getLast? = some l) :
    ∃ consumed p1 sub post : Str,
      text = consumed ++ ')' :: post ∧
      st = ⟨p1 ++ '(' :: (sub ++ ')' :: post), p1.length + 1 + sub.length,
        openIndices p1 ++ [p1.length]⟩ ∧
      l = p1.length ∧ NoParen sub ∧ (∀ c ∈ p1, c ≠ ')') ∧
      (openIndices p1).length + 1 + consumed.count ')' = consumed.count '(' := by
  obtain ⟨consumed, pre, post0, htext, hexpr, hi, hstk, hnoclose, hcount⟩ := hinv
  obtain ⟨e, i, stk⟩ := st
  simp only at hexpr hi hstk hc hl hcount
  subst hexpr hi
  obtain ⟨post, rfl⟩ := head_of_getElem?_append pre post0 ')' hc
  have hstk' : stk = stk.dropLast ++ [l] := by
    have hne : stk ≠ [] := by
      rintro rfl
      simp at hl
    rw [List.getLast?_eq_getLast _ hne, Option.some.injEq] at hl
    rw [← hl, List.dropLast_append_getLast hne]
  obtain ⟨p1, sub, hp, hlen, hopen, hsub⟩ :=
    openIndices_split_last pre stk.dropLast l (by rw [← hstk, ← hstk'])
  subst hp
  refine ⟨consumed, p1, sub, post, htext, ?_, hlen.symm, ?_, ?_, ?_⟩
  · have e1 : p1 ++ '(' :: sub ++ ')' :: post = p1 ++ '(' :: (sub ++ ')' :: post) := by simp
    have e2 : (p1 ++ '(' :: sub).length = p1.length + 1 + sub.length := by simp; omega
    rw [e1, e2, hstk', hopen, hlen]
  · intro c hcs
    exact ⟨hsub c hcs, hnoclose c (by simp [hcs])⟩
  · intro c hcs
    exact hnoclose c (by simp [hcs])
  · rw [hstk'] at hcount
    rw [hopen]
    simpa using hcount

/-- One iteration of the scan loop keeps `ScanInvariant`, if no rendering holds a
parenthesis. -/
theorem scanInvariant_step (ops : NumberOps Number) (plugins : List (Plugin Number))
    (hrender : ∀ v, NoParen (ops.to_string v)) (text : Str) (st st' : ScanState) (c : Char)
    (hinv : ScanInvariant text st) (hc : st.expression[st.i]? = some c)
    (hstep : scanStep ops plugins st c = .ok st') : ScanInvariant text st' := by
  by_cases hclose : c = ')'
  · subst hclose
    cases hl : st.LeftBracketIndex.getLast? with
    | none =>
      have h1 : ¬ (')' : Char) = '(' := by decide
      simp [scanStep, hl, h1] at hstep
    | some l =>
      obtain ⟨consumed, p1, sub, post, htext, hst, _, hsub, hp1, hcount⟩ :=
        scanInvariant_at_close text st hinv hc l hl
      subst hst
      cases hv : ParserExpression ops plugins sub with
      | error f =>
        rw [scanStep_close_error ops plugins p1 sub post _ f hv] at hstep
        exact nomatch hstep
      | ok v =>
        rw [scanStep_close ops plugins p1 sub post _ v hv, Except.ok.injEq] at hstep
        subst hstep
        refine ⟨consumed ++ [')'], p1 ++ ops.to_string v, post, by simp [htext], rfl,
          by simp, ?_, ?_, ?_⟩
        · simp only [openIndices, openIndicesFrom_append]
          rw [openIndicesFrom_noOpen _ (fun d hd => (hrender v d hd).1)]
          simp
        · intro d hd
          rcases List.mem_append.1 hd with h | h
          · exact hp1 d h
          · exact (hrender v d h).2
        · simp only [List.count_append, List.count_singleton_self]
          have : List.count '(' [')'] = 0 := by decide
          omega
  · obtain ⟨consumed, pre, post0, htext, hexpr, hi, hstk, hnoclose, hcount⟩ := hinv
    obtain ⟨e, i, stk⟩ := st
    simp only at hexpr hi hstk hc hcount
    subst hexpr hi
    obtain ⟨post, rfl⟩ := head_of_getElem?_append pre post0 c hc
    by_cases hopen : c = '('
    · subst hopen
      simp only [scanStep, if_true, Except.ok.injEq] at hstep
      subst hstep
      refine ⟨consumed ++ ['('], pre ++ ['('], post, by simp [htext], by simp, by simp, ?_, ?_,
        ?_⟩
      · simp only [openIndices, openIndicesFrom_append, Nat.zero_add, openIndicesFrom, if_true]
        rw [hstk]
        rfl
      · intro d hd
        rcases List.mem_append.1 hd with h | h
        · exact hnoclose d h
        · simp only [List.mem_singleton] at h
          rw [h]
          decide
      · simp only [List.count_append, List.count_singleton_self, List.length_append,
          List.length_singleton]
        have : List.count ')' ['('] = 0 := by decide
        omega
    · simp only [scanStep, if_neg hopen, if_neg hclose, Except.ok.injEq] at hstep
      subst hstep
      refine ⟨consumed ++ [c], pre ++ [c], post, by simp [htext], by simp, by simp, ?_, ?_, ?_⟩
      · simp only [openIndices, openIndicesFrom_append, Nat.zero_add, openIndicesFrom,
          if_neg hopen, List.append_nil]
        exact hstk
      · intro d hd
        rcases List.mem_append.1 hd with h | h
        · exact hnoclose d h
        · simp only [List.mem_singleton] at h
          rw [h]
          exact hclose
      · have h1 : List.count ')' [c] = 0 := by
          simp [List.count_singleton, Ne.symm hclose]
        have h2 : List.count '(' [c] = 0 := by
          simp [List.count_singleton, Ne.symm hopen]
        simp only [List.count_append, h1, h2]
        omega

/-- The invariant holds at the head of every iteration. -/
theorem scanInvariant_reached (ops : NumberOps Number) (plugins : List (Plugin Number))
    (hrender : ∀ v, NoParen (ops.to_string v)) (text : Str) (st : ScanState)
    (h : ScanReaches ops plugins ⟨text, 0, []⟩ st) : ScanInvariant text st := by
  induction h with
  | start => exact ⟨[], [], text, rfl, rfl, rfl, rfl, by simp, rfl⟩
  | next _ hc hstep ih => exact scanInvariant_step ops plugins hrender text _ _ _ ih hc hstep

/-! ### Innermost-first resolution -/

theorem noParen_exact_rendering (v : Value) : NoParen (exactOps.to_string v) := by
  cases v with
  | nan => exact (by decide : NoParen ['n', 'a', 'n'])
  | fin q =>
    show NoParen (formatF q)
    have hdig : ∀ n, NoParen (Nat.toDigits 10 n) := fun n => (toDigits_isDigits n).toNumberText.noParen
    have hrep : ∀ k, NoParen (List.replicate k '0') := by
      intro k c hc
      rw [List.eq_of_mem_replicate hc]
      decide
    have hsign : NoParen (if q < 0 then ['-'] else []) := by
      split
      · decide
      · intro c hc
        simp at hc
    simp only [formatF]
    exact ((((hsign.append (hdig _)).append (by decide)).append (hrep _)).append (hdig _))

/-- C19. At the head of an iteration that stands on a `)` with a non-empty bracket stack, the
text strictly between the most recently pushed `(` and that `)`, which is handed to
`ParserExpression`, holds neither `(` nor `)`; and after the substitution every index left on
the stack points at a `(` of the rewritten text.  The renderings of `std::to_string` are taken
to hold no parenthesis. -/
theorem scan_resolves_innermost_first (ops : NumberOps Number) (plugins : List (Plugin Number))
    (hrender : ∀ v, NoParen (ops.to_string v)) (text : Str) (st : ScanState)
    (hreach : ScanReaches ops plugins ⟨text, 0, []⟩ st)
    (hc : st.expression[st.i]? = some ')') (l : Nat)
    (hl : st.LeftBracketIndex.getLast? = some l) :
    NoParen (substr st.expression (l + 1) (st.i - l - 1)) ∧
    st.expression[l]? = some '(' ∧
    ∀ st', scanStep ops plugins st ')' = .ok st' →
      ∃ v, ParserExpression ops plugins (substr st.expression (l + 1) (st.i - l - 1)) = .ok v ∧
        st'.LeftBracketIndex = st.LeftBracketIndex.dropLast ∧
        ∀ k ∈ st'.LeftBracketIndex, st'.expression[k]? = some '(' := by
  have hinv := scanInvariant_reached ops plugins hrender text st hreach
  obtain ⟨consumed, p1, sub, post, _, hst, hlp, hsub, _, _⟩ :=
    scanInvariant_at_close text st hinv hc l hl
  have hsubstr : substr st.expression (l + 1) (st.i - l - 1) = sub := by
    rw [hst, hlp]
    exact substr_group p1 sub post
  refine ⟨by rw [hsubstr]; exact hsub, ?_, ?_⟩
  · rw [hst, hlp]
    exact getElem?_append_cons _ _ _
  · intro st' hstep
    have hinv' := scanInvariant_step ops plugins hrender text st st' ')' hinv hc hstep
    rw [hsubstr]
    have hstep' := hstep
    rw [hst] at hstep'
    cases hv : ParserExpression ops plugins sub with
    | error f =>
      rw [scanStep_close_error ops plugins p1 sub post _ f hv] at hstep'
      exact nomatch hstep'
    | ok v =>
      rw [scanStep_close ops plugins p1 sub post _ v hv, Except.ok.injEq] at hstep'
      refine ⟨v, rfl, ?_, ?_⟩
      · rw [← hstep', hst]
        simp
      · obtain ⟨_, pre', post', _, hexpr', _, hstk', _, _⟩ := hinv'
        intro k hk
        rw [hexpr']
        exact openIndices_points_at_open pre' post' k (hstk' ▸ hk)

theorem scan_resolves_innermost_first_witness :
    NoParen (substr "(3)".toList (0 + 1) (2 - 0 - 1)) ∧
    "(3)".toList[0]? = some '(' ∧
    ∀ st', scanStep exactOps [] ⟨"(3)".toList, 2, [0]⟩ ')' = .ok st' →
      ∃ v, ParserExpression exactOps [] (substr "(3)".toList (0 + 1) (2 - 0 - 1)) = .ok v ∧
        st'.LeftBracketIndex = [] ∧
        ∀ k ∈ st'.LeftBracketIndex, st'.expression[k]? = some '(' :=
  scan_resolves_innermost_first exactOps [] noParen_exact_rendering "(3)".toList
    ⟨"(3)".toList, 2, [0]⟩
    (@ScanReaches.next Value exactOps [] ⟨"(3)".toList, 0, []⟩ ⟨"(3)".toList, 1, [0]⟩
      ⟨"(3)".toList, 2, [0]⟩ '3'
      (@ScanReaches.next Value exactOps [] ⟨"(3)".toList, 0, []⟩ ⟨"(3)".toList, 0, []⟩
        ⟨"(3)".toList, 1, [0]⟩ '(' (ScanReaches.start _) (by decide) (by decide))
      (by decide) (by decide))
    (by decide) 0 (by decide)

/-! ### Termination of the scan loop -/

/-- Every iteration brings the index closer to the end of the current text, also the one that
substitutes a group: the index is set right behind the rendering. -/
theorem scanStep_measure (ops : NumberOps Number) (plugins : List (Plugin Number))
    (st st' : ScanState) (c : Char) (hc : st.expression[st.i]? = some c)
    (hstep : scanStep ops plugins st c = .ok st') :
    st'.expression.length - st'.i < st.expression.length - st.i := by
  have hi : st.i < st.expression.length := by
    rcases List.getElem?_eq_some.1 hc with ⟨h, _⟩
    exact h
  by_cases hopen : c = '('
  · simp only [scanStep, if_pos hopen, Except.ok.injEq] at hstep
    subst hstep
    simp only
    omega
  · by_cases hclose : c = ')'
    · simp only [scanStep, if_neg hopen, if_pos hclose] at hstep
      cases hl : st.LeftBracketIndex.getLast? with
      | none => simp [hl] at hstep
      | some l =>
        simp only [hl] at hstep
        cases hv : ParserExpression ops plugins
            (substr st.expression (l + 1) (st.i - l - 1)) with
        | error f => simp [hv] at hstep
        | ok v =>
          simp only [hv, Except.ok.injEq] at hstep
          subst hstep
          simp only [insertStr, eraseStr, List.length_append, List.length_take,
            List.length_drop]
          omega
    · simp only [scanStep, if_neg hopen, if_neg hclose, Except.ok.injEq] at hstep
      subst hstep
      simp only
      omega

/-- The scan loop ends within as many iterations as characters are left, plus one. -/
theorem scanLoop_terminates (ops : NumberOps Number) (plugins : List (Plugin Number)) :
    ∀ (fuel : Nat) (st : ScanState), st.expression.length - st.i < fuel →
      ∃ r, scanLoop ops plugins fuel st = some r := by
  intro fuel
  induction fuel with
  | zero => intro st h; omega
  | succ fuel ih =>
    intro st h
    simp only [scanLoop]
    cases hc : st.expression[st.i]? with
    | none => exact ⟨_, rfl⟩
    | some c =>
      simp only []
      cases hs : scanStep ops plugins st c with
      | error f => exact ⟨_, rfl⟩
      | ok st1 =>
        simp only []
        have := scanStep_measure ops plugins st st1 c hc hs
        exact ih st1 (by omega)

/-- A normal end of the scan loop is a reached state that stands behind the last character. -/
theorem scanLoop_ok_reached (ops : NumberOps Number) (plugins : List (Plugin Number))
    (st0 : ScanState) :
    ∀ (fuel : Nat) (st : ScanState) (flat : Str), ScanReaches ops plugins st0 st →
      scanLoop ops plugins fuel st = some (.ok flat) →
      ∃ st', ScanReaches ops plugins st0 st' ∧ st'.expression = flat ∧
        st'.expression[st'.i]? = none := by
  intro fuel
  induction fuel with
  | zero => intro st flat _ h; simp [scanLoop] at h
  | succ fuel ih =>
    intro st flat hreach h
    simp only [scanLoop] at h
    cases hc : st.expression[st.i]? with
    | none =>
      simp only [hc, Option.some.injEq, Except.ok.injEq] at h
      exact ⟨st, hreach, h, hc⟩
    | some c =>
      simp only [hc] at h
      cases hs : scanStep ops plugins st c with
      | error f => simp [hs] at h
      | ok st1 =>
        simp only [hs] at h
        exact ih st1 flat (ScanReaches.next hreach hc hs) h

theorem closersPending_stack (text : Str) (st : ScanState) (hpending : ClosersPending text)
    (hinv : ScanInvariant text st) (hc : st.expression[st.i]? = some ')') :
    st.LeftBracketIndex ≠ [] := by
  obtain ⟨consumed, pre, post0, htext, hexpr, hi, _, _, hcount⟩ := hinv
  rw [hexpr, hi] at hc
  obtain ⟨post, rfl⟩ := head_of_getElem?_append pre post0 ')' hc
  have hk := hpending consumed.length (by rw [htext]; simp)
    (by rw [htext]; exact getElem?_append_cons _ _ _)
  rw [htext, List.take_left] at hk
  intro hnil
  rw [hnil] at hcount
  simp only [List.length_nil, Nat.zero_add] at hcount
  omega

/-- C20. The scan loop of `ParserString` ends for every input text, within `text.length + 1`
iterations: each iteration, also a substitution that lengthens the text, leaves fewer
characters behind the index.  When no rendering holds a parenthesis, every substitution lowers
the number of `)` in the text, a `)` of an input in which each `)` has a pending `(` always
finds the stack non-empty, and the text left by a normal end of the loop holds no `)`. -/
theorem scan_loop_terminates (ops : NumberOps Number) (plugins : List (Plugin Number))
    (text : Str) :
    (∃ r, scanLoop ops plugins (text.length + 1) ⟨text, 0, []⟩ = some r) ∧
    (∃ r, ParserString ops plugins (text.length + 1) text = some r) ∧
    ((∀ v, NoParen (ops.to_string v)) →
      (∀ st st', ScanReaches ops plugins ⟨text, 0, []⟩ st →
        st.expression[st.i]? = some ')' → scanStep ops plugins st ')' = .ok st' →
        st'.expression.count ')' < st.expression.count ')') ∧
      (ClosersPending text → ∀ st, ScanReaches ops plugins ⟨text, 0, []⟩ st →
        st.expression[st.i]? = some ')' → st.LeftBracketIndex ≠ []) ∧
      (∀ flat, scanLoop ops plugins (text.length + 1) ⟨text, 0, []⟩ = some (.ok flat) →
        ∀ c ∈ flat, c ≠ ')')) := by
  have hterm := scanLoop_terminates ops plugins (text.length + 1) ⟨text, 0, []⟩
    (by simp only [Nat.sub_zero]; omega)
  refine ⟨hterm, ?_, fun hrender => ⟨?_, ?_, ?_⟩⟩
  · obtain ⟨r, hr⟩ := hterm
    simp only [ParserString, hr]
    cases r with
    | error f => exact ⟨_, rfl⟩
    | ok flat => exact ⟨_, rfl⟩
  · intro st st' hreach hc hstep
    have hinv := scanInvariant_reached ops plugins hrender text st hreach
    cases hl : st.LeftBracketIndex.getLast? with
    | none =>
      have h1 : ¬ (')' : Char) = '(' := by decide
      simp [scanStep, hl, h1] at hstep
    | some l =>
      obtain ⟨consumed, p1, sub, post, _, hst, _, hsub, _, _⟩ :=
        scanInvariant_at_close text st hinv hc l hl
      subst hst
      cases hv : ParserExpression ops plugins sub with
      | error f =>
        rw [scanStep_close_error ops plugins p1 sub post _ f hv] at hstep
        exact nomatch hstep
      | ok v =>
        rw [scanStep_close ops plugins p1 sub post _ v hv, Except.ok.injEq] at hstep
        subst hstep
        have hs : List.count ')' (ops.to_string v) = 0 :=
          List.count_eq_zero.2 (fun hmem => (hrender v _ hmem).2 rfl)
        have hopen : List.count ')' ['('] = 0 := by decide
        simp only [List.count_append, List.count_cons_self, hs]
        rw [show '(' :: (sub ++ ')' :: post) = ['('] ++ (sub ++ ')' :: post) by rfl,
          List.count_append, List.count_append, hopen, List.count_cons_self]
        omega
  · intro hpending st hreach hc
    exact closersPending_stack text st hpending
      (scanInvariant_reached ops plugins hrender text st hreach) hc
  · intro flat hflat c hmem
    obtain ⟨st', hreach', hexpr, hend⟩ :=
      scanLoop_ok_reached ops plugins ⟨text, 0, []⟩ _ _ flat (ScanReaches.start _) hflat
    obtain ⟨_, pre, post, _, hexpr', hi, _, hnoclose, _⟩ :=
      scanInvariant_reached ops plugins hrender text st' hreach'
    rw [hexpr', hi] at hend
    have hpost : post = [] := by
      cases post with
      | nil => rfl
      | cons d rest =>
        rw [getElem?_append_cons] at hend
        exact absurd hend (by simp)
    rw [← hexpr, hexpr', hpost, List.append_nil] at hmem
    exact hnoclose c hmem

theorem scan_loop_terminates_witness :
    (∀ st, ScanReaches exactOps [] ⟨"(3)".toList, 0, []⟩ st →
      st.expression[st.i]? = some ')' → st.LeftBracketIndex ≠ []) ∧
    ∀ c ∈ "3.000000".toList, c ≠ ')' :=
  ⟨((scan_loop_terminates exactOps [] "(3)".toList).2.2 noParen_exact_rendering).2.1
      (by decide),
   ((scan_loop_terminates exactOps [] "(3)".toList).2.2 noParen_exact_rendering).2.2
      "3.000000".toList (by decide!)⟩

end Properties

end Calc
